import Mathlib

/-!
Verification of the Sudoku puzzle engine found in `sudoku_game.py` and
`sudoku_enhanced.py`.

The engine works on 9×9 boards represented as a list of 9 rows, each a list of
9 numbers, where 0 denotes a blank cell.  The Python code mutates boards in
place; here every operation takes the board and returns the updated board, so
the state of the mutable buffer is explicit.  The unbounded Python recursion of
the backtracking search is modelled with an explicit fuel parameter (an
`Option` result, `none` meaning "out of fuel"); the fuel-adequacy theorems show
that fuel `82` (more than the number of empty cells of any 9×9 board) is always
sufficient, so the fuelled functions coincide with the Python functions on all
real boards.  Randomness (`random.shuffle`) is modelled by quantifying over the
outcome of every shuffle: a shuffled digit list becomes a parameter that the
theorems constrain to be a permutation of `[1..9]`.
-/

set_option maxRecDepth 4000

namespace Sudoku

/-- A board: 9 rows of 9 entries, entry `0` meaning blank (`board` in the
Python sources). -/
abbrev Grid := List (List Nat)

/-- Reading `board[i][j]`; out-of-range reads default to `0` (never happens on
well-formed boards). -/
def getCell (b : Grid) (i j : Nat) : Nat := (b.getD i []).getD j 0

/-- Writing `board[i][j] = v`; out-of-range writes are a no-op (never happens
on well-formed boards). -/
def setCell (b : Grid) (i j v : Nat) : Grid := b.set i ((b.getD i []).set j v)

/-- The all-blank board `[[0]*9]*9`. -/
def emptyGrid : Grid := List.replicate 9 (List.replicate 9 0)

/-- Well-formedness: the board really is 9×9 (always true of the Python
boards). -/
def Wf (b : Grid) : Prop := b.length = 9 ∧ ∀ i < 9, (b.getD i []).length = 9

instance (b : Grid) : Decidable (Wf b) := by unfold Wf; infer_instance

/-- Every entry of the board is one of the digits 0–9 (always true of the
Python boards, whose cells hold 0 or a placed digit 1–9). -/
def inRange (b : Grid) : Prop := ∀ i < 9, ∀ j < 9, getCell b i j ≤ 9

instance (b : Grid) : Decidable (inRange b) := by unfold inRange; infer_instance

/-- `is_valid_move` of both sources (sudoku_game.py lines 62–82,
sudoku_enhanced.py lines 145–165): `num` must not already occur in row `row`,
in column `col`, or in the 3×3 box containing `(row, col)`. -/
def is_valid_move (b : Grid) (row col num : Nat) : Bool :=
  ((List.range 9).all fun x => getCell b row x != num) &&
  ((List.range 9).all fun x => getCell b x col != num) &&
  ((List.range 3).all fun i => (List.range 3).all fun j =>
    getCell b (i + (row - row % 3)) (j + (col - col % 3)) != num)

/-- Scan for the first empty cell starting at linear index `k` (row-major, as
the nested `for i / for j` loops of the sources do); `left` counts the cells
still to inspect. -/
def findEmptyFrom (b : Grid) : Nat → Nat → Option (Nat × Nat)
  | 0, _ => none
  | left + 1, k =>
    if getCell b (k / 9) (k % 9) == 0 then some (k / 9, k % 9)
    else findEmptyFrom b left (k + 1)

/-- First empty cell of the board in row-major order, if any. -/
def findEmpty (b : Grid) : Option (Nat × Nat) := findEmptyFrom b 81 0

/-- The digit loop of `solve_sudoku` (sudoku_game.py lines 88–94): try each
candidate of `nums` at the empty cell `(i, j)`; on a legal candidate place it
and run the recursive search `rec`; on failure un-place (`board[i][j] = 0`) and
continue with the next candidate. -/
def solveLoop (rec : Grid → Option (Grid × Bool)) (i j : Nat) :
    Grid → List Nat → Option (Grid × Bool)
  | b, [] => some (b, false)
  | b, n :: rest =>
    if is_valid_move b i j n then
      match rec (setCell b i j n) with
      | none => none
      | some (b2, true) => some (b2, true)
      | some (b2, false) => solveLoop rec i j (setCell b2 i j 0) rest
    else solveLoop rec i j b rest

/-- `solve_sudoku` of sudoku_game.py (lines 84–96): find the first empty cell;
if none the board is solved; otherwise try the digits 1..9 in ascending order
(`range(1, 10)`).  The result is the final state of the board paired with the
returned boolean; `none` means out of fuel. -/
def solveF : Nat → Grid → Option (Grid × Bool)
  | 0, _ => none
  | fuel + 1, b =>
    match findEmpty b with
    | none => some (b, true)
    | some (i, j) => solveLoop (solveF fuel) i j b (List.range' 1 9)

/-- The digit loop of the enhanced `solve_sudoku` (sudoku_enhanced.py lines
172–180), additionally threading the index `k` into the stream of shuffle
outcomes through the recursive calls. -/
def solveELoop (rec : Grid → Nat → Option (Grid × Bool × Nat)) (i j : Nat) :
    Grid → Nat → List Nat → Option (Grid × Bool × Nat)
  | b, k, [] => some (b, false, k)
  | b, k, n :: rest =>
    if is_valid_move b i j n then
      match rec (setCell b i j n) k with
      | none => none
      | some (b2, true, k2) => some (b2, true, k2)
      | some (b2, false, k2) => solveELoop rec i j (setCell b2 i j 0) k2 rest
    else solveELoop rec i j b k rest

/-- `solve_sudoku` of sudoku_enhanced.py (lines 167–181): identical to the
plain solver except that the digits are tried in the order produced by
`random.shuffle`.  The shuffle outcomes are modelled by the stream `ords`: the
`k`-th call of `random.shuffle` yields the list `ords k` (constrained to be a
permutation of `[1..9]` in the theorems), and `k` counts the shuffle calls made
so far. -/
def solveEF (ords : Nat → List Nat) : Nat → Grid → Nat → Option (Grid × Bool × Nat)
  | 0, _, _ => none
  | fuel + 1, b, k =>
    match findEmpty b with
    | none => some (b, true, k)
    | some (i, j) => solveELoop (solveEF ords fuel) i j b (k + 1) (ords k)

/-- The digit loop of `solve_count` inside `count_solutions`
(sudoku_enhanced.py lines 238–244): try every digit at the empty cell,
recursing on each legal one and un-placing afterwards, threading the solution
counter through. -/
def countLoop (rec : Grid → Nat → Option (Grid × Nat)) (i j : Nat) :
    Grid → Nat → List Nat → Option (Grid × Nat)
  | b, cnt, [] => some (b, cnt)
  | b, cnt, n :: rest =>
    if is_valid_move b i j n then
      match rec (setCell b i j n) cnt with
      | none => none
      | some (b2, cnt2) => countLoop rec i j (setCell b2 i j 0) cnt2 rest
    else countLoop rec i j b cnt rest

/-- `solve_count` of `count_solutions` (sudoku_enhanced.py lines 229–249): at
entry, return immediately once more than one solution has been found
(`if count[0] > 1: return`); on a full board increment the counter; otherwise
run the digit loop on the first empty cell and return. -/
def countF : Nat → Grid → Nat → Option (Grid × Nat)
  | 0, _, _ => none
  | fuel + 1, b, cnt =>
    if 1 < cnt then some (b, cnt)
    else
      match findEmpty b with
      | none => some (b, cnt + 1)
      | some (i, j) => countLoop (countF fuel) i j b cnt (List.range' 1 9)

/-- `solve_sudoku` of sudoku_game.py as a total function: final board state and
boolean result (fuel 82 is sufficient by `solve_terminates`). -/
def solve_sudoku (b : Grid) : Grid × Bool := (solveF 82 b).getD (b, false)

/-- `count_solutions` of sudoku_enhanced.py as a total function: the returned
count (fuel 82 is sufficient by `count_terminates`). -/
def count_solutions (b : Grid) : Nat := ((countF 82 b 0).getD (b, 0)).2

/-- The `Difficulty` enum of both sources. -/
inductive Difficulty
  | easy
  | medium
  | hard
  | expert
deriving DecidableEq

/-- The removal fractions `Difficulty.EASY = 0.3`, `MEDIUM = 0.5`,
`HARD = 0.7`, `EXPERT = 0.8`, as exact rationals `n / 10`. -/
def Difficulty.num : Difficulty → Nat
  | .easy => 3
  | .medium => 5
  | .hard => 7
  | .expert => 8

/-- `cells_to_remove = int(81 * difficulty.value)`: 81 times the removal
fraction, truncated to an integer, i.e. `⌊81 * n/10⌋`.  (Python computes this
with binary floats; for the four fractions in use the float computation yields
the same integers 24, 40, 56, 64 as the exact computation taken here.) -/
def cellsToRemove (d : Difficulty) : Nat := 81 * d.num / 10

/-- Filling one diagonal box (sudoku_game.py lines 103–108, sudoku_enhanced.py
lines 187–192): `board[box+i][box+j] = nums.pop()` pops from the end of the
shuffled list, so cell number `k = 3*i + j` of the box receives `nums[8-k]`. -/
def fillBox (b : Grid) (box : Nat) (nums : List Nat) : Grid :=
  (List.range 9).foldl
    (fun g k => setCell g (box + k / 3) (box + k % 3) (nums.getD (8 - k) 0)) b

/-- The three diagonal boxes filled with the shuffle outcomes `p0`, `p1`, `p2`
on an all-blank board. -/
def diagBoard (p0 p1 p2 : List Nat) : Grid :=
  fillBox (fillBox (fillBox emptyGrid 0 p0) 3 p1) 6 p2

/-- `generate_complete_board` of sudoku_game.py (lines 98–112): fill the three
diagonal boxes with shuffled digits, then run the ascending-order solver; the
board is returned whether or not the solve succeeded. -/
def generate_complete_board (p0 p1 p2 : List Nat) : Grid :=
  match solveF 82 (diagBoard p0 p1 p2) with
  | none => diagBoard p0 p1 p2
  | some (b2, _) => b2

/-- `generate_complete_board` of sudoku_enhanced.py (lines 183–197): same, but
the solver tries shuffled digit orders given by the stream `ords`. -/
def generate_complete_board_enh (p0 p1 p2 : List Nat) (ords : Nat → List Nat) : Grid :=
  match solveEF ords 82 (diagBoard p0 p1 p2) 0 with
  | none => diagBoard p0 p1 p2
  | some (b2, _, _) => b2

/-- `create_puzzle` of sudoku_game.py (lines 114–130): blank the first
`cells_to_remove` cells of the shuffled coordinate list unconditionally and
return `(puzzle, complete_board)`.  `cells` is the outcome of
`random.shuffle(cells)`. -/
def create_puzzle_game (p0 p1 p2 : List Nat) (cells : List (Nat × Nat))
    (diff : Difficulty) : Grid × Grid :=
  let complete_board := generate_complete_board p0 p1 p2
  let puzzle := (cells.take (cellsToRemove diff)).foldl
    (fun g rc => setCell g rc.1 rc.2 0) complete_board
  (puzzle, complete_board)

/-- The removal loop of the enhanced `create_puzzle` (sudoku_enhanced.py lines
211–225): for each coordinate, stop once `removed_count >= cells_to_remove`;
otherwise tentatively blank the cell, and keep the blank exactly when
`count_solutions` of the blanked board is 1, else restore the saved digit. -/
def removeLoop : List (Nat × Nat) → Nat → Nat → Grid → Grid
  | [], _, _, puzzle => puzzle
  | rc :: rest, removed, target, puzzle =>
    if target ≤ removed then puzzle
    else
      let temp := getCell puzzle rc.1 rc.2
      let p0 := setCell puzzle rc.1 rc.2 0
      if count_solutions p0 = 1 then removeLoop rest (removed + 1) target p0
      else removeLoop rest removed target (setCell p0 rc.1 rc.2 temp)

/-- `create_puzzle` of sudoku_enhanced.py (lines 199–227): generate a complete
board, then greedily blank cells, keeping only blanks that preserve uniqueness
of the solution. -/
def create_puzzle (p0 p1 p2 : List Nat) (ords : Nat → List Nat)
    (cells : List (Nat × Nat)) (diff : Difficulty) : Grid × Grid :=
  let complete_board := generate_complete_board_enh p0 p1 p2 ords
  (removeLoop cells 0 (cellsToRemove diff) complete_board, complete_board)

/-- Number of blank cells of the board (among the 81 positions). -/
def numZeros (b : Grid) : Nat :=
  ((Finset.range 81).filter fun k => getCell b (k / 9) (k % 9) = 0).card

/-- A fully filled 9×9 assignment of digits, written with `Fin 9`-valued cells:
cell `(i, j)` holds digit `d i j + 1`. -/
abbrev Digits := Fin 9 → Fin 9 → Fin 9

/-- The digit 1–9 held at cell `(i, j)` of the assignment `d`. -/
def toVal (d : Digits) (i j : Fin 9) : Nat := (d i j).val + 1

/-- Two cells share a Sudoku unit: same row, same column, or same 3×3 box. -/
def sameUnit (r c r' c' : Nat) : Prop :=
  r = r' ∨ c = c' ∨ (r / 3 = r' / 3 ∧ c / 3 = c' / 3)

instance (r c r' c' : Nat) : Decidable (sameUnit r c r' c') := by
  unfold sameUnit; infer_instance

/-- The assignment `d` agrees with every already-filled cell of the board. -/
def agrees (b : Grid) (d : Digits) : Prop :=
  ∀ i j : Fin 9, getCell b i.val j.val ≠ 0 → toVal d i j = getCell b i.val j.val

/-- The assignments reachable by the backtracking search from board `b`: `d`
agrees with the filled cells of `b`, and any two equal digits of `d` in a
common unit sit on cells that were both already filled in `b` (each digit
placed by the search was checked by `is_valid_move` against all cells filled
before it, so no conflict can involve a newly filled cell). -/
def goodExt (b : Grid) (d : Digits) : Prop :=
  agrees b d ∧
  ∀ p q : Fin 9 × Fin 9, p ≠ q → sameUnit p.1.val p.2.val q.1.val q.2.val →
    toVal d p.1 p.2 = toVal d q.1 q.2 →
    getCell b p.1.val p.2.val ≠ 0 ∧ getCell b q.1.val q.2.val ≠ 0

/-- A complete legal solution of the partial board `b`: it agrees with the
filled cells of `b` and no digit repeats in any row, column or box. -/
def validCompletion (b : Grid) (d : Digits) : Prop :=
  agrees b d ∧
  ∀ p q : Fin 9 × Fin 9, p ≠ q → sameUnit p.1.val p.2.val q.1.val q.2.val →
    toVal d p.1 p.2 ≠ toVal d q.1 q.2

/-- The filled cells of `b` are mutually legal: no digit appears twice in a
row, column or box among the non-blank cells. -/
def consistent (b : Grid) : Prop :=
  ∀ p q : Fin 9 × Fin 9, p ≠ q → sameUnit p.1.val p.2.val q.1.val q.2.val →
    getCell b p.1.val p.2.val ≠ 0 → getCell b q.1.val q.2.val ≠ 0 →
    getCell b p.1.val p.2.val ≠ getCell b q.1.val q.2.val

instance (b : Grid) (d : Digits) : Decidable (agrees b d) := by
  unfold agrees; infer_instance

instance (b : Grid) (d : Digits) : Decidable (goodExt b d) := by
  unfold goodExt; infer_instance

instance (b : Grid) (d : Digits) : Decidable (validCompletion b d) := by
  unfold validCompletion; infer_instance

instance (b : Grid) : Decidable (consistent b) := by
  unfold consistent; infer_instance

/-- Number of assignments reachable by the backtracking search from `b`. -/
def nGood (b : Grid) : Nat := (Finset.univ.filter fun d : Digits => goodExt b d).card

/-- Number of complete legal solutions of the partial board `b`. -/
def nCompletions (b : Grid) : Nat :=
  (Finset.univ.filter fun d : Digits => validCompletion b d).card

/-- The board `g` is exactly the assignment `d` written out as a board. -/
def fills (g : Grid) (d : Digits) : Prop :=
  Wf g ∧ ∀ i j : Fin 9, getCell g i.val j.val = toVal d i j

/-- A legal full assignment: no digit repeats in any row, column or box. -/
def legalAssign (d : Digits) : Prop :=
  ∀ p q : Fin 9 × Fin 9, p ≠ q → sameUnit p.1.val p.2.val q.1.val q.2.val →
    toVal d p.1 p.2 ≠ toVal d q.1 q.2

instance (d : Digits) : Decidable (legalAssign d) := by
  unfold legalAssign; infer_instance

/-- The classic shifted complete assignment (cell `(i,j)` holds
`(3i + ⌊i/3⌋ + j) mod 9`, plus one); a legal full assignment. -/
def d1W (i j : Fin 9) : Fin 9 :=
  ⟨(3 * i.val + i.val / 3 + j.val) % 9, Nat.mod_lt _ (by norm_num)⟩

/-- The shifted assignment with every digit advanced by one (mod 9); a second
legal full assignment, distinct from `d1W`. -/
def d2W (i j : Fin 9) : Fin 9 :=
  ⟨(3 * i.val + i.val / 3 + j.val + 1) % 9, Nat.mod_lt _ (by norm_num)⟩

/-- The assignment read off a fully filled board (cell values reduced by one;
the `% 9` is harmless on boards whose entries lie in 1..9). -/
def digitsOfGrid (b : Grid) : Digits :=
  fun i j => ⟨(getCell b i.val j.val - 1) % 9, Nat.mod_lt _ (by norm_num)⟩

/-- Concrete shuffle outcome for the first diagonal box, used in the witnesses
and counterexamples below. -/
def p0W : List Nat := [6, 4, 3, 5, 8, 9, 1, 7, 2]

/-- Concrete shuffle outcome for the middle diagonal box. -/
def p1W : List Nat := [8, 3, 1, 2, 5, 7, 4, 9, 6]

/-- Concrete shuffle outcome for the last diagonal box. -/
def p2W : List Nat := [5, 2, 8, 6, 9, 7, 1, 3, 4]

/-- The digits that the complete board `GW` below holds at the 54 off-diagonal
cells, in row-major order. -/
def targetsW : List Nat :=
  [3, 4, 5, 6, 8, 9, 2, 1, 6, 3, 4, 7, 8, 7, 9, 1, 5, 2,
   1, 2, 3, 5, 7, 8, 4, 6, 8, 9, 1, 3, 5, 9, 7, 2, 6, 4,
   6, 5, 2, 9, 8, 7, 8, 1, 4, 5, 2, 3, 7, 3, 9, 4, 6, 1]

/-- Concrete outcome stream for the shuffles of the randomized solver: the
`k`-th shuffle puts the digit that leads straight to `GW` first (every outcome
is a permutation of `[1..9]`, as `random.shuffle` produces). -/
def ordsW (k : Nat) : List Nat :=
  match targetsW.get? k with
  | some d => d :: (List.range' 1 9).erase d
  | none => List.range' 1 9

/-- The complete valid board generated from `p0W`, `p1W`, `p2W` by both the
ascending-order solver and by the randomized solver under `ordsW`. -/
def GW : Grid :=
  [[2, 7, 1, 3, 4, 5, 6, 8, 9],
   [9, 8, 5, 2, 1, 6, 3, 4, 7],
   [3, 4, 6, 8, 7, 9, 1, 5, 2],
   [1, 2, 3, 6, 9, 4, 5, 7, 8],
   [4, 6, 8, 7, 5, 2, 9, 1, 3],
   [5, 9, 7, 1, 3, 8, 2, 6, 4],
   [6, 5, 2, 9, 8, 7, 4, 3, 1],
   [8, 1, 4, 5, 2, 3, 7, 9, 6],
   [7, 3, 9, 4, 6, 1, 8, 2, 5]]

/-- Concrete shuffled coordinate list whose first 24 cells contain the deadly
rectangle `(0,1), (0,4), (2,1), (2,4)` of `GW` (the digits 7/4 appear crosswise
there), so blanking those 24 cells leaves a board with two solutions. -/
def cellsCex : List (Nat × Nat) :=
  [(0, 1), (0, 4), (2, 1), (2, 4), (4, 5), (3, 3), (2, 3), (3, 4),
   (8, 1), (4, 0), (7, 5), (6, 7), (5, 1), (0, 6), (1, 5), (2, 7),
   (7, 1), (4, 4), (1, 4), (8, 5), (5, 2), (3, 2), (6, 2), (5, 7)]

/-- The list of all 81 cell coordinates in row-major order, as both sources
build it (`[(i, j) for i in range(9) for j in range(9)]`) before shuffling. -/
def allCellsL : List (Nat × Nat) :=
  [(0, 0), (0, 1), (0, 2), (0, 3), (0, 4), (0, 5), (0, 6), (0, 7), (0, 8),
   (1, 0), (1, 1), (1, 2), (1, 3), (1, 4), (1, 5), (1, 6), (1, 7), (1, 8),
   (2, 0), (2, 1), (2, 2), (2, 3), (2, 4), (2, 5), (2, 6), (2, 7), (2, 8),
   (3, 0), (3, 1), (3, 2), (3, 3), (3, 4), (3, 5), (3, 6), (3, 7), (3, 8),
   (4, 0), (4, 1), (4, 2), (4, 3), (4, 4), (4, 5), (4, 6), (4, 7), (4, 8),
   (5, 0), (5, 1), (5, 2), (5, 3), (5, 4), (5, 5), (5, 6), (5, 7), (5, 8),
   (6, 0), (6, 1), (6, 2), (6, 3), (6, 4), (6, 5), (6, 6), (6, 7), (6, 8),
   (7, 0), (7, 1), (7, 2), (7, 3), (7, 4), (7, 5), (7, 6), (7, 7), (7, 8),
   (8, 0), (8, 1), (8, 2), (8, 3), (8, 4), (8, 5), (8, 6), (8, 7), (8, 8)]

/-- A full shuffle outcome of the 81 coordinates that begins with `cellsCex`:
a permutation of `allCellsL` whose first 24 entries (the easy-difficulty
removal count) are the cells of `cellsCex`. -/
def cellsCexFull : List (Nat × Nat) :=
  cellsCex ++ allCellsL.filter fun rc => !cellsCex.contains rc

/-- A board whose every cell holds 1: fully filled, but not a legal solution
of anything. -/
def allOnes : Grid := List.replicate 9 (List.replicate 9 1)

/-- A legally-consistent board with a single empty cell that cannot be filled:
the missing digit of row 0 is 9, but column 8 already contains 9. -/
def stuckGrid : Grid :=
  [[1, 2, 3, 4, 5, 6, 7, 8, 0],
   [0, 0, 0, 0, 0, 0, 0, 0, 9],
   [0, 0, 0, 0, 0, 0, 0, 0, 0],
   [0, 0, 0, 0, 0, 0, 0, 0, 0],
   [0, 0, 0, 0, 0, 0, 0, 0, 0],
   [0, 0, 0, 0, 0, 0, 0, 0, 0],
   [0, 0, 0, 0, 0, 0, 0, 0, 0],
   [0, 0, 0, 0, 0, 0, 0, 0, 0],
   [0, 0, 0, 0, 0, 0, 0, 0, 0]]

/-!  ## Lemmas about the board primitives -/

theorem getD_row (b : Grid) (i : Nat) : b.getD i [] = b[i]?.getD [] := by
  simp [List.getD_eq_getElem?_getD]

theorem getD_row_of_le {b : Grid} {i : Nat} (h : b.length ≤ i) : b.getD i [] = [] := by
  rw [getD_row, List.getElem?_eq_none h]
  rfl

theorem getD_row_set_self {b : Grid} {i : Nat} (h : i < b.length) (r : List Nat) :
    (b.set i r).getD i [] = r := by
  rw [getD_row, List.getElem?_set, if_pos rfl, if_pos h]
  rfl

theorem getD_row_set_ne {b : Grid} {i m : Nat} (h : i ≠ m) (r : List Nat) :
    (b.set i r).getD m [] = b.getD m [] := by
  rw [getD_row, List.getElem?_set, if_neg h, getD_row]

theorem getD_elem_set_self {l : List Nat} {j : Nat} (h : j < l.length) (v : Nat) :
    (l.set j v).getD j 0 = v := by
  rw [List.getD_eq_getElem?_getD, List.getElem?_set, if_pos rfl, if_pos h]
  rfl

theorem getD_elem_set_ne {l : List Nat} {j m : Nat} (h : j ≠ m) (v : Nat) :
    (l.set j v).getD m 0 = l.getD m 0 := by
  rw [List.getD_eq_getElem?_getD, List.getElem?_set, if_neg h, List.getD_eq_getElem?_getD]

theorem wf_setCell {b : Grid} (hW : Wf b) (i j v : Nat) : Wf (setCell b i j v) := by
  obtain ⟨h1, h2⟩ := hW
  refine ⟨by simp [setCell, h1], fun m hm => ?_⟩
  by_cases hmi : i = m
  · subst hmi
    rw [setCell, getD_row_set_self (by omega), List.length_set]
    exact h2 i hm
  · rw [setCell, getD_row_set_ne hmi]
    exact h2 m hm

theorem getCell_setCell_self {b : Grid} (hW : Wf b) {i j : Nat} (hi : i < 9) (hj : j < 9)
    (v : Nat) : getCell (setCell b i j v) i j = v := by
  obtain ⟨h1, h2⟩ := hW
  rw [getCell, setCell, getD_row_set_self (by omega)]
  exact getD_elem_set_self (by rw [h2 i hi]; omega) v

theorem getCell_setCell_ne {b : Grid} {i j i' j' : Nat} (h : i' ≠ i ∨ j' ≠ j) (v : Nat) :
    getCell (setCell b i j v) i' j' = getCell b i' j' := by
  by_cases hii : i = i'
  · subst hii
    have hjj : j ≠ j' := by tauto
    by_cases hlen : i < b.length
    · rw [getCell, setCell, getD_row_set_self hlen, getD_elem_set_ne hjj, getCell]
    · rw [getCell, setCell, List.set_eq_of_length_le (by omega), getCell]
  · rw [getCell, setCell, getD_row_set_ne hii, getCell]

theorem setCell_setCell (b : Grid) (i j v w : Nat) :
    setCell (setCell b i j v) i j w = setCell b i j w := by
  unfold setCell
  by_cases hlen : i < b.length
  · rw [getD_row_set_self hlen, List.set_set, List.set_set]
  · simp only [List.set_eq_of_length_le (show b.length ≤ i by omega)]

theorem set_getD_self {l : List Nat} {n : Nat} (h : n < l.length) :
    l.set n (l.getD n 0) = l := by
  apply List.ext_getElem?
  intro m
  rw [List.getElem?_set]
  by_cases hm : n = m
  · subst hm
    rw [if_pos rfl, if_pos h, List.getD_eq_getElem?_getD, List.getElem?_eq_getElem h]
    rfl
  · rw [if_neg hm]

theorem rowset_getD_self {b : Grid} {n : Nat} (h : n < b.length) :
    b.set n (b.getD n []) = b := by
  apply List.ext_getElem?
  intro m
  rw [List.getElem?_set]
  by_cases hm : n = m
  · subst hm
    rw [if_pos rfl, if_pos h, getD_row, List.getElem?_eq_getElem h]
    rfl
  · rw [if_neg hm]

theorem setCell_getCell_self {b : Grid} (hW : Wf b) {i j : Nat} (hi : i < 9) (hj : j < 9) :
    setCell b i j (getCell b i j) = b := by
  obtain ⟨h1, h2⟩ := hW
  rw [setCell, getCell, set_getD_self (by rw [h2 i hi]; omega)]
  exact rowset_getD_self (by omega)

theorem setCell_cancel {b : Grid} (hW : Wf b) {i j : Nat} (hi : i < 9) (hj : j < 9) (v : Nat) :
    setCell (setCell b i j v) i j (getCell b i j) = b := by
  rw [setCell_setCell]
  exact setCell_getCell_self hW hi hj

theorem inRange_setCell {b : Grid} (hW : Wf b) (hR : inRange b) {v : Nat} (hv : v ≤ 9)
    (i j : Nat) : inRange (setCell b i j v) := by
  intro i' hi' j' hj'
  by_cases hij : i' = i ∧ j' = j
  · obtain ⟨rfl, rfl⟩ := hij
    rw [getCell_setCell_self hW hi' hj']
    exact hv
  · rw [getCell_setCell_ne (by tauto)]
    exact hR i' hi' j' hj'

/-!  ## Lemmas about the empty-cell scan -/

theorem findEmptyFrom_some {b : Grid} {i j : Nat} :
    ∀ {left k : Nat}, findEmptyFrom b left k = some (i, j) →
      ∃ m, k ≤ m ∧ m < k + left ∧ i = m / 9 ∧ j = m % 9 ∧ getCell b i j = 0 := by
  intro left
  induction left with
  | zero => intro k h; simp [findEmptyFrom] at h
  | succ l ih =>
    intro k h
    rw [findEmptyFrom] at h
    split at h
    · rename_i hz
      obtain ⟨rfl, rfl⟩ : i = k / 9 ∧ j = k % 9 := by
        have h' : (k / 9, k % 9) = (i, j) := by injection h
        obtain ⟨h1, h2⟩ := Prod.mk.injEq .. ▸ h'
        exact ⟨h1.symm, h2.symm⟩
      exact ⟨k, le_refl k, by omega, rfl, rfl, by simpa using hz⟩
    · obtain ⟨m, h1, h2, h3⟩ := ih h
      exact ⟨m, by omega, by omega, h3⟩

theorem findEmpty_some {b : Grid} {i j : Nat} (h : findEmpty b = some (i, j)) :
    i < 9 ∧ j < 9 ∧ getCell b i j = 0 := by
  obtain ⟨m, h1, h2, h3, h4, h5⟩ := findEmptyFrom_some h
  refine ⟨by omega, by omega, h5⟩

theorem findEmptyFrom_none {b : Grid} :
    ∀ {left k : Nat}, findEmptyFrom b left k = none →
      ∀ m, k ≤ m → m < k + left → getCell b (m / 9) (m % 9) ≠ 0 := by
  intro left
  induction left with
  | zero => intro k _ m _ _; omega
  | succ l ih =>
    intro k h m hm1 hm2
    rw [findEmptyFrom] at h
    split at h
    · exact absurd h (by simp)
    · rename_i hz
      by_cases hmk : m = k
      · subst hmk
        simpa using hz
      · exact ih h m (by omega) (by omega)

theorem findEmpty_none {b : Grid} (h : findEmpty b = none) :
    ∀ i < 9, ∀ j < 9, getCell b i j ≠ 0 := by
  intro i hi j hj
  have h9 : (9 * i + j) / 9 = i ∧ (9 * i + j) % 9 = j := by omega
  have := findEmptyFrom_none h (9 * i + j) (by omega) (by omega)
  rwa [h9.1, h9.2] at this

/-!  ## Lemmas about the blank-cell count -/

theorem numZeros_lt_82 (b : Grid) : numZeros b < 82 := by
  have : numZeros b ≤ 81 := by
    simpa using Finset.card_filter_le (Finset.range 81)
      (fun k => getCell b (k / 9) (k % 9) = 0)
  omega

theorem numZeros_pos {b : Grid} {i j : Nat} (hi : i < 9) (hj : j < 9)
    (h0 : getCell b i j = 0) : 0 < numZeros b := by
  rw [numZeros, Finset.card_pos]
  refine ⟨9 * i + j, Finset.mem_filter.mpr ⟨Finset.mem_range.mpr (by omega), ?_⟩⟩
  have h9 : (9 * i + j) / 9 = i ∧ (9 * i + j) % 9 = j := by omega
  rw [h9.1, h9.2]
  exact h0

theorem numZeros_setCell {b : Grid} (hW : Wf b) {i j v : Nat} (hi : i < 9) (hj : j < 9)
    (h0 : getCell b i j = 0) (hv : v ≠ 0) :
    numZeros (setCell b i j v) + 1 = numZeros b := by
  have hmem : 9 * i + j ∈ (Finset.range 81).filter
      (fun k => getCell b (k / 9) (k % 9) = 0) := by
    refine Finset.mem_filter.mpr ⟨Finset.mem_range.mpr (by omega), ?_⟩
    have h9 : (9 * i + j) / 9 = i ∧ (9 * i + j) % 9 = j := by omega
    rw [h9.1, h9.2]
    exact h0
  have hset : (Finset.range 81).filter
        (fun k => getCell (setCell b i j v) (k / 9) (k % 9) = 0) =
      ((Finset.range 81).filter (fun k => getCell b (k / 9) (k % 9) = 0)).erase
        (9 * i + j) := by
    ext k
    rw [Finset.mem_erase, Finset.mem_filter, Finset.mem_filter]
    constructor
    · rintro ⟨hk, hz⟩
      have hk81 := Finset.mem_range.mp hk
      by_cases hkij : k = 9 * i + j
      · subst hkij
        have h9 : (9 * i + j) / 9 = i ∧ (9 * i + j) % 9 = j := by omega
        rw [h9.1, h9.2, getCell_setCell_self hW hi hj] at hz
        exact absurd hz hv
      · have hne : k / 9 ≠ i ∨ k % 9 ≠ j := by omega
        rw [getCell_setCell_ne hne] at hz
        exact ⟨hkij, hk, hz⟩
    · rintro ⟨hkij, hk, hz⟩
      have hk81 := Finset.mem_range.mp hk
      have hne : k / 9 ≠ i ∨ k % 9 ≠ j := by omega
      exact ⟨hk, by rw [getCell_setCell_ne hne]; exact hz⟩
  rw [numZeros, numZeros, hset, Finset.card_erase_of_mem hmem]
  have := Finset.card_pos.mpr ⟨9 * i + j, hmem⟩
  omega

/-!  ## Characterization of the validity check -/

theorem sameUnit_symm {r c r' c' : Nat} (h : sameUnit r c r' c') : sameUnit r' c' r c := by
  rcases h with h | h | h
  · exact Or.inl h.symm
  · exact Or.inr (Or.inl h.symm)
  · exact Or.inr (Or.inr ⟨h.1.symm, h.2.symm⟩)

theorem valid_iff {b : Grid} {r c n : Nat} (hr : r < 9) (hc : c < 9) :
    is_valid_move b r c n = true ↔
      ∀ i' j', i' < 9 → j' < 9 → sameUnit r c i' j' → getCell b i' j' ≠ n := by
  rw [is_valid_move]
  simp only [Bool.and_eq_true, List.all_eq_true, List.mem_range, bne_iff_ne, ne_eq]
  constructor
  · rintro ⟨⟨h1, h2⟩, h3⟩ i' j' hi' hj' hu
    rcases hu with hrow | hcol | ⟨hb1, hb2⟩
    · subst hrow
      exact h1 j' hj'
    · subst hcol
      exact h2 i' hi'
    · have e1 : i' % 3 + (r - r % 3) = i' := by omega
      have e2 : j' % 3 + (c - c % 3) = j' := by omega
      have := h3 (i' % 3) (by omega) (j' % 3) (by omega)
      rwa [e1, e2] at this
  · intro h
    refine ⟨⟨fun x hx => ?_, fun x hx => ?_⟩, fun a ha d hd => ?_⟩
    · exact h r x hr hx (Or.inl rfl)
    · exact h x c hx hc (Or.inr (Or.inl rfl))
    · refine h (a + (r - r % 3)) (d + (c - c % 3)) (by omega) (by omega) ?_
      exact Or.inr (Or.inr ⟨by omega, by omega⟩)

/-!  ## Backtracking restores the board

Each of the three searches un-places every digit it placed, so the board that
comes back is the board that went in (except for the successful branch of the
solvers, which returns the completed board). -/

theorem solveLoop_restore {rec : Grid → Option (Grid × Bool)}
    (hrec : ∀ g g2, Wf g → rec g = some (g2, false) → g2 = g)
    {i j : Nat} (hi : i < 9) (hj : j < 9) :
    ∀ {nums : List Nat} {b b2 : Grid}, Wf b → getCell b i j = 0 →
      solveLoop rec i j b nums = some (b2, false) → b2 = b := by
  intro nums
  induction nums with
  | nil =>
    intro b b2 hW h0 h
    simp only [solveLoop, Option.some.injEq, Prod.mk.injEq] at h
    exact h.1.symm
  | cons n rest ih =>
    intro b b2 hW h0 h
    rw [solveLoop] at h
    split at h
    · cases hr : rec (setCell b i j n) with
      | none => rw [hr] at h; exact absurd h (by simp)
      | some gr =>
        obtain ⟨g2, r⟩ := gr
        rw [hr] at h
        cases r with
        | true => simp at h
        | false =>
          have hg2 : g2 = setCell b i j n :=
            hrec _ _ (wf_setCell hW i j n) hr
          have hcan : setCell (setCell b i j n) i j 0 = b := by
            have := setCell_cancel hW hi hj n
            rwa [h0] at this
          have h' : solveLoop rec i j (setCell g2 i j 0) rest = some (b2, false) := h
          rw [hg2, hcan] at h'
          exact ih hW h0 h'
    · exact ih hW h0 h

theorem solveF_restore : ∀ {fuel : Nat} {b b2 : Grid}, Wf b →
    solveF fuel b = some (b2, false) → b2 = b := by
  intro fuel
  induction fuel with
  | zero => intro b b2 _ h; simp [solveF] at h
  | succ f ih =>
    intro b b2 hW h
    rw [solveF] at h
    cases he : findEmpty b with
    | none =>
      rw [he] at h
      simp at h
    | some ij =>
      obtain ⟨i, j⟩ := ij
      rw [he] at h
      obtain ⟨hi, hj, h0⟩ := findEmpty_some he
      exact solveLoop_restore (fun g g2 hg hgr => ih hg hgr) hi hj hW h0 h

theorem solveELoop_restore {rec : Grid → Nat → Option (Grid × Bool × Nat)}
    (hrec : ∀ g k g2 k2, Wf g → rec g k = some (g2, false, k2) → g2 = g)
    {i j : Nat} (hi : i < 9) (hj : j < 9) :
    ∀ {nums : List Nat} {b b2 : Grid} {k k2 : Nat}, Wf b → getCell b i j = 0 →
      solveELoop rec i j b k nums = some (b2, false, k2) → b2 = b := by
  intro nums
  induction nums with
  | nil =>
    intro b b2 k k2 hW h0 h
    simp only [solveELoop, Option.some.injEq, Prod.mk.injEq] at h
    exact h.1.symm
  | cons n rest ih =>
    intro b b2 k k2 hW h0 h
    rw [solveELoop] at h
    split at h
    · cases hr : rec (setCell b i j n) k with
      | none => rw [hr] at h; exact absurd h (by simp)
      | some gr =>
        obtain ⟨g2, r, kr⟩ := gr
        rw [hr] at h
        cases r with
        | true => simp at h
        | false =>
          have hg2 : g2 = setCell b i j n :=
            hrec _ _ _ _ (wf_setCell hW i j n) hr
          have hcan : setCell (setCell b i j n) i j 0 = b := by
            have := setCell_cancel hW hi hj n
            rwa [h0] at this
          have h' : solveELoop rec i j (setCell g2 i j 0) kr rest = some (b2, false, k2) := h
          rw [hg2, hcan] at h'
          exact ih hW h0 h'
    · exact ih hW h0 h

theorem solveEF_restore {ords : Nat → List Nat} :
    ∀ {fuel : Nat} {b b2 : Grid} {k k2 : Nat}, Wf b →
      solveEF ords fuel b k = some (b2, false, k2) → b2 = b := by
  intro fuel
  induction fuel with
  | zero => intro b b2 k k2 _ h; simp [solveEF] at h
  | succ f ih =>
    intro b b2 k k2 hW h
    rw [solveEF] at h
    cases he : findEmpty b with
    | none =>
      rw [he] at h
      simp at h
    | some ij =>
      obtain ⟨i, j⟩ := ij
      rw [he] at h
      obtain ⟨hi, hj, h0⟩ := findEmpty_some he
      exact solveELoop_restore (fun g kk g2 k2' hg hgr => ih hg hgr) hi hj hW h0 h

theorem countLoop_restore {rec : Grid → Nat → Option (Grid × Nat)}
    (hrec : ∀ g c g2 c2, Wf g → rec g c = some (g2, c2) → g2 = g)
    {i j : Nat} (hi : i < 9) (hj : j < 9) :
    ∀ {nums : List Nat} {b b2 : Grid} {cnt c2 : Nat}, Wf b → getCell b i j = 0 →
      countLoop rec i j b cnt nums = some (b2, c2) → b2 = b := by
  intro nums
  induction nums with
  | nil =>
    intro b b2 cnt c2 hW h0 h
    simp only [countLoop, Option.some.injEq, Prod.mk.injEq] at h
    exact h.1.symm
  | cons n rest ih =>
    intro b b2 cnt c2 hW h0 h
    rw [countLoop] at h
    split at h
    · cases hr : rec (setCell b i j n) cnt with
      | none => rw [hr] at h; exact absurd h (by simp)
      | some gr =>
        obtain ⟨g2, cr⟩ := gr
        rw [hr] at h
        have hg2 : g2 = setCell b i j n :=
          hrec _ _ _ _ (wf_setCell hW i j n) hr
        have hcan : setCell (setCell b i j n) i j 0 = b := by
          have := setCell_cancel hW hi hj n
          rwa [h0] at this
        have h' : countLoop rec i j (setCell g2 i j 0) cr rest = some (b2, c2) := h
        rw [hg2, hcan] at h'
        exact ih hW h0 h'
    · exact ih hW h0 h

theorem countF_restore : ∀ {fuel : Nat} {b b2 : Grid} {cnt c2 : Nat}, Wf b →
    countF fuel b cnt = some (b2, c2) → b2 = b := by
  intro fuel
  induction fuel with
  | zero => intro b b2 cnt c2 _ h; simp [countF] at h
  | succ f ih =>
    intro b b2 cnt c2 hW h
    rw [countF] at h
    split at h
    · simp only [Option.some.injEq, Prod.mk.injEq] at h
      exact h.1.symm
    · cases he : findEmpty b with
      | none =>
        rw [he] at h
        simp only [Option.some.injEq, Prod.mk.injEq] at h
        exact h.1.symm
      | some ij =>
        obtain ⟨i, j⟩ := ij
        rw [he] at h
        obtain ⟨hi, hj, h0⟩ := findEmpty_some he
        exact countLoop_restore (fun g c g2 c2' hg hgr => ih hg hgr) hi hj hW h0 h

/-!  ## Fuel adequacy: every search terminates within fuel 82

Each recursive call fills an empty cell first, so the recursion depth is
bounded by the number of empty cells. -/

theorem solveLoop_total {fuel : Nat}
    (hrec : ∀ g, Wf g → numZeros g < fuel → (solveF fuel g).isSome)
    {i j : Nat} (hi : i < 9) (hj : j < 9) :
    ∀ {nums : List Nat} {b : Grid}, (∀ n ∈ nums, n ≠ 0) → Wf b →
      getCell b i j = 0 → numZeros b < fuel + 1 →
      (solveLoop (solveF fuel) i j b nums).isSome := by
  intro nums
  induction nums with
  | nil => intro b _ _ _ _; simp [solveLoop]
  | cons n rest ih =>
    intro b hn hW h0 hz
    rw [solveLoop]
    split
    · have hWs := wf_setCell hW i j n
      have hzs : numZeros (setCell b i j n) < fuel := by
        have := numZeros_setCell hW hi hj h0 (hn n (by simp))
        omega
      cases hr : solveF fuel (setCell b i j n) with
      | none =>
        have := hrec _ hWs hzs
        rw [hr] at this
        simp at this
      | some gr =>
        obtain ⟨g2, r⟩ := gr
        cases r with
        | true => simp
        | false =>
          have hg2 : g2 = setCell b i j n := solveF_restore hWs hr
          have hcan : setCell (setCell b i j n) i j 0 = b := by
            have := setCell_cancel hW hi hj n
            rwa [h0] at this
          show (solveLoop (solveF fuel) i j (setCell g2 i j 0) rest).isSome = true
          rw [hg2, hcan]
          exact ih (fun m hm => hn m (by simp [hm])) hW h0 hz
    · exact ih (fun m hm => hn m (by simp [hm])) hW h0 hz

theorem solveF_total : ∀ {fuel : Nat} {b : Grid}, Wf b → numZeros b < fuel →
    (solveF fuel b).isSome := by
  intro fuel
  induction fuel with
  | zero => intro b _ h; omega
  | succ f ih =>
    intro b hW hz
    rw [solveF]
    cases he : findEmpty b with
    | none => simp
    | some ij =>
      obtain ⟨i, j⟩ := ij
      obtain ⟨hi, hj, h0⟩ := findEmpty_some he
      have hzpos := numZeros_pos hi hj h0
      refine solveLoop_total (fun g hg hzg => ih hg hzg) hi hj ?_ hW h0 (by omega)
      intro n hn
      have : 1 ≤ n := (List.mem_range'_1.mp hn).1
      omega

theorem solveELoop_total {ords : Nat → List Nat} {fuel : Nat}
    (hrec : ∀ g k, Wf g → numZeros g < fuel → (solveEF ords fuel g k).isSome)
    {i j : Nat} (hi : i < 9) (hj : j < 9) :
    ∀ {nums : List Nat} {b : Grid} {k : Nat}, (∀ n ∈ nums, n ≠ 0) → Wf b →
      getCell b i j = 0 → numZeros b < fuel + 1 →
      (solveELoop (solveEF ords fuel) i j b k nums).isSome := by
  intro nums
  induction nums with
  | nil => intro b k _ _ _ _; simp [solveELoop]
  | cons n rest ih =>
    intro b k hn hW h0 hz
    rw [solveELoop]
    split
    · have hWs := wf_setCell hW i j n
      have hzs : numZeros (setCell b i j n) < fuel := by
        have := numZeros_setCell hW hi hj h0 (hn n (by simp))
        omega
      cases hr : solveEF ords fuel (setCell b i j n) k with
      | none =>
        have := hrec _ k hWs hzs
        rw [hr] at this
        simp at this
      | some gr =>
        obtain ⟨g2, r, kr⟩ := gr
        cases r with
        | true => simp
        | false =>
          have hg2 : g2 = setCell b i j n := solveEF_restore hWs hr
          have hcan : setCell (setCell b i j n) i j 0 = b := by
            have := setCell_cancel hW hi hj n
            rwa [h0] at this
          show (solveELoop (solveEF ords fuel) i j (setCell g2 i j 0) kr rest).isSome = true
          rw [hg2, hcan]
          exact ih (fun m hm => hn m (by simp [hm])) hW h0 hz
    · exact ih (fun m hm => hn m (by simp [hm])) hW h0 hz

theorem solveEF_total {ords : Nat → List Nat}
    (hords : ∀ m, ∀ n ∈ ords m, n ≠ 0) :
    ∀ {fuel : Nat} {b : Grid} {k : Nat}, Wf b → numZeros b < fuel →
      (solveEF ords fuel b k).isSome := by
  intro fuel
  induction fuel with
  | zero => intro b k _ h; omega
  | succ f ih =>
    intro b k hW hz
    rw [solveEF]
    cases he : findEmpty b with
    | none => simp
    | some ij =>
      obtain ⟨i, j⟩ := ij
      obtain ⟨hi, hj, h0⟩ := findEmpty_some he
      have hzpos := numZeros_pos hi hj h0
      exact solveELoop_total (fun g kk hg hzg => ih hg hzg) hi hj
        (hords k) hW h0 (by omega)

theorem countLoop_total {fuel : Nat}
    (hrec : ∀ g c, Wf g → numZeros g < fuel → (countF fuel g c).isSome)
    {i j : Nat} (hi : i < 9) (hj : j < 9) :
    ∀ {nums : List Nat} {b : Grid} {cnt : Nat}, (∀ n ∈ nums, n ≠ 0) → Wf b →
      getCell b i j = 0 → numZeros b < fuel + 1 →
      (countLoop (countF fuel) i j b cnt nums).isSome := by
  intro nums
  induction nums with
  | nil => intro b cnt _ _ _ _; simp [countLoop]
  | cons n rest ih =>
    intro b cnt hn hW h0 hz
    rw [countLoop]
    split
    · have hWs := wf_setCell hW i j n
      have hzs : numZeros (setCell b i j n) < fuel := by
        have := numZeros_setCell hW hi hj h0 (hn n (by simp))
        omega
      cases hr : countF fuel (setCell b i j n) cnt with
      | none =>
        have := hrec _ cnt hWs hzs
        rw [hr] at this
        simp at this
      | some gr =>
        obtain ⟨g2, cr⟩ := gr
        have hg2 : g2 = setCell b i j n := countF_restore hWs hr
        have hcan : setCell (setCell b i j n) i j 0 = b := by
          have := setCell_cancel hW hi hj n
          rwa [h0] at this
        show (countLoop (countF fuel) i j (setCell g2 i j 0) cr rest).isSome = true
        rw [hg2, hcan]
        exact ih (fun m hm => hn m (by simp [hm])) hW h0 hz
    · exact ih (fun m hm => hn m (by simp [hm])) hW h0 hz

theorem countF_total : ∀ {fuel : Nat} {b : Grid} {cnt : Nat}, Wf b → numZeros b < fuel →
    (countF fuel b cnt).isSome := by
  intro fuel
  induction fuel with
  | zero => intro b cnt _ h; omega
  | succ f ih =>
    intro b cnt hW hz
    rw [countF]
    split
    · simp
    · cases he : findEmpty b with
      | none => simp
      | some ij =>
        obtain ⟨i, j⟩ := ij
        obtain ⟨hi, hj, h0⟩ := findEmpty_some he
        have hzpos := numZeros_pos hi hj h0
        refine countLoop_total (fun g c hg hzg => ih hg hzg) hi hj ?_ hW h0 (by omega)
        intro n hn
        have : 1 ≤ n := (List.mem_range'_1.mp hn).1
        omega

/-!  ## The search-reachable assignments and their count

`goodExt b` characterizes exactly the full assignments the backtracking search
can reach from `b`; placing a digit at the first empty cell partitions them by
the digit placed there. -/

theorem toVal_pos (d : Digits) (i j : Fin 9) : toVal d i j ≠ 0 := by
  simp [toVal]

theorem toVal_le_nine (d : Digits) (i j : Fin 9) : toVal d i j ≤ 9 := by
  have := (d i j).isLt
  simp only [toVal]
  omega

theorem goodExt_full {b : Grid} (hW : Wf b) (hR : inRange b)
    (hfull : ∀ i < 9, ∀ j < 9, getCell b i j ≠ 0) :
    goodExt b (digitsOfGrid b) ∧ fills b (digitsOfGrid b) := by
  have hval : ∀ i j : Fin 9, toVal (digitsOfGrid b) i j = getCell b i.val j.val := by
    intro i j
    have h1 : getCell b i.val j.val ≠ 0 := hfull i.val i.isLt j.val j.isLt
    have h2 : getCell b i.val j.val ≤ 9 := hR i.val i.isLt j.val j.isLt
    simp only [toVal, digitsOfGrid]
    omega
  refine ⟨⟨fun i j _ => hval i j, fun p q _ _ _ => ?_⟩, hW, fun i j => (hval i j).symm⟩
  exact ⟨hfull _ p.1.isLt _ p.2.isLt, hfull _ q.1.isLt _ q.2.isLt⟩

theorem goodExt_unique_of_full {b : Grid} {d : Digits}
    (hfull : ∀ i < 9, ∀ j < 9, getCell b i j ≠ 0) (hd : goodExt b d) :
    d = digitsOfGrid b := by
  funext i j
  have h1 := hd.1 i j (hfull i.val i.isLt j.val j.isLt)
  simp only [toVal] at h1
  simp only [digitsOfGrid]
  apply Fin.ext
  simp only
  omega

theorem nGood_full {b : Grid} (hW : Wf b) (hR : inRange b)
    (hfull : ∀ i < 9, ∀ j < 9, getCell b i j ≠ 0) : nGood b = 1 := by
  rw [nGood, Finset.card_eq_one]
  refine ⟨digitsOfGrid b, ?_⟩
  ext d
  simp only [Finset.mem_filter, Finset.mem_univ, true_and, Finset.mem_singleton]
  constructor
  · exact goodExt_unique_of_full hfull
  · rintro rfl
    exact (goodExt_full hW hR hfull).1

theorem goodExt_setCell_iff {b : Grid} (hW : Wf b) {i j : Fin 9}
    (h0 : getCell b i.val j.val = 0) {v : Fin 9}
    (hvalid : is_valid_move b i.val j.val (v.val + 1) = true) (d : Digits) :
    goodExt (setCell b i.val j.val (v.val + 1)) d ↔ goodExt b d ∧ d i j = v := by
  have hget := getCell_setCell_self hW i.isLt j.isLt (v.val + 1)
  have hne : ∀ p : Fin 9 × Fin 9, (p.1 ≠ i ∨ p.2 ≠ j) →
      getCell (setCell b i.val j.val (v.val + 1)) p.1.val p.2.val =
        getCell b p.1.val p.2.val := by
    intro p hp
    refine getCell_setCell_ne ?_ _
    rcases hp with h | h
    · exact Or.inl (fun he => h (Fin.ext he))
    · exact Or.inr (fun he => h (Fin.ext he))
  have hvalid' := (valid_iff i.isLt j.isLt).mp hvalid
  constructor
  · rintro ⟨hagree, hconf⟩
    have hdij : d i j = v := by
      have := hagree i j (by rw [hget]; omega)
      rw [hget] at this
      simp only [toVal] at this
      exact Fin.ext (by omega)
    refine ⟨⟨fun i' j' h' => ?_, fun p q hpq hu ht => ?_⟩, hdij⟩
    · have hne' : i' ≠ i ∨ j' ≠ j := by
        by_contra hcon
        push_neg at hcon
        rw [hcon.1, hcon.2] at h'
        exact h' h0
      have := hagree i' j' (by rw [hne ⟨i', j'⟩ hne']; exact h')
      rwa [hne ⟨i', j'⟩ hne'] at this
    · by_cases hp : p.1 = i ∧ p.2 = j
      · exfalso
        have hq : q.1 ≠ i ∨ q.2 ≠ j := by
          by_contra hcon
          push_neg at hcon
          apply hpq
          rw [Prod.ext_iff]
          exact ⟨hp.1.trans hcon.1.symm, hp.2.trans hcon.2.symm⟩
        have htq : toVal d q.1 q.2 = v.val + 1 := by
          rw [← ht, hp.1, hp.2]
          simp [toVal, hdij]
        have hq0 : getCell b q.1.val q.2.val ≠ 0 := by
          have := (hconf p q hpq hu ht).2
          rwa [hne q hq] at this
        have hqagree : toVal d q.1 q.2 = getCell b q.1.val q.2.val := by
          have := hagree q.1 q.2 (by rw [hne q hq]; exact hq0)
          rwa [hne q hq] at this
        have hsu : sameUnit i.val j.val q.1.val q.2.val := by
          rw [← hp.1, ← hp.2]
          exact hu
        exact hvalid' q.1.val q.2.val q.1.isLt q.2.isLt hsu (by omega)
      · by_cases hq : q.1 = i ∧ q.2 = j
        · exfalso
          have hp' : p.1 ≠ i ∨ p.2 ≠ j := by tauto
          have htp : toVal d p.1 p.2 = v.val + 1 := by
            rw [ht, hq.1, hq.2]
            simp [toVal, hdij]
          have hp0 : getCell b p.1.val p.2.val ≠ 0 := by
            have := (hconf p q hpq hu ht).1
            rwa [hne p hp'] at this
          have hpagree : toVal d p.1 p.2 = getCell b p.1.val p.2.val := by
            have := hagree p.1 p.2 (by rw [hne p hp']; exact hp0)
            rwa [hne p hp'] at this
          have hsu : sameUnit i.val j.val p.1.val p.2.val := by
            rw [← hq.1, ← hq.2]
            exact sameUnit_symm hu
          exact hvalid' p.1.val p.2.val p.1.isLt p.2.isLt hsu (by omega)
        · have hp' : p.1 ≠ i ∨ p.2 ≠ j := by tauto
          have hq' : q.1 ≠ i ∨ q.2 ≠ j := by tauto
          have := hconf p q hpq hu ht
          rw [hne p hp', hne q hq'] at this
          exact this
  · rintro ⟨⟨hagree, hconf⟩, hdij⟩
    refine ⟨fun i' j' h' => ?_, fun p q hpq hu ht => ?_⟩
    · by_cases hij : i' = i ∧ j' = j
      · rw [hij.1, hij.2, hget]
        simp [toVal, hdij]
      · have hne' : i' ≠ i ∨ j' ≠ j := by tauto
        rw [hne ⟨i', j'⟩ hne'] at h' ⊢
        exact hagree i' j' h'
    · by_cases hp : p.1 = i ∧ p.2 = j
      · refine ⟨by rw [hp.1, hp.2, hget]; omega, ?_⟩
        have hq : q.1 ≠ i ∨ q.2 ≠ j := by
          by_contra hcon
          push_neg at hcon
          apply hpq
          rw [Prod.ext_iff]
          exact ⟨hp.1.trans hcon.1.symm, hp.2.trans hcon.2.symm⟩
        rw [hne q hq]
        intro hq0
        have := hconf p q hpq hu ht
        rw [hp.1, hp.2] at this
        exact (this.1) h0
      · by_cases hq : q.1 = i ∧ q.2 = j
        · refine ⟨?_, by rw [hq.1, hq.2, hget]; omega⟩
          have hp' : p.1 ≠ i ∨ p.2 ≠ j := by tauto
          rw [hne p hp']
          intro hp0
          have := hconf p q hpq hu ht
          rw [hq.1, hq.2] at this
          exact (this.2) h0
        · have hp' : p.1 ≠ i ∨ p.2 ≠ j := by tauto
          have hq' : q.1 ≠ i ∨ q.2 ≠ j := by tauto
          rw [hne p hp', hne q hq']
          exact hconf p q hpq hu ht

theorem goodExt_invalid {b : Grid} {i j : Fin 9} (h0 : getCell b i.val j.val = 0)
    {v : Fin 9} (hinvalid : is_valid_move b i.val j.val (v.val + 1) = false)
    (d : Digits) : ¬(goodExt b d ∧ d i j = v) := by
  rintro ⟨⟨hagree, hconf⟩, hdij⟩
  have : ¬ (∀ i' j', i' < 9 → j' < 9 → sameUnit i.val j.val i' j' →
      getCell b i' j' ≠ v.val + 1) := by
    intro hall
    have hv := (valid_iff i.isLt j.isLt).mpr hall
    rw [hv] at hinvalid
    exact absurd hinvalid (by simp)
  push_neg at this
  obtain ⟨i', j', hi', hj', hsu, hcell⟩ := this
  have hne : (⟨i, j⟩ : Fin 9 × Fin 9) ≠ ⟨⟨i', hi'⟩, ⟨j', hj'⟩⟩ := by
    intro hcon
    rw [Prod.ext_iff] at hcon
    obtain ⟨h1, h2⟩ := hcon
    rw [show i.val = i' from congrArg Fin.val h1,
      show j.val = j' from congrArg Fin.val h2] at h0
    rw [h0] at hcell
    omega
  have hq0 : getCell b i' j' ≠ 0 := by omega
  have hqagree := hagree ⟨i', hi'⟩ ⟨j', hj'⟩ hq0
  have htv : toVal d i j = v.val + 1 := by simp [toVal, hdij]
  have harg : toVal d i j = toVal d ⟨i', hi'⟩ ⟨j', hj'⟩ := by
    rw [htv, hqagree]
    exact hcell.symm
  have := hconf ⟨i, j⟩ ⟨⟨i', hi'⟩, ⟨j', hj'⟩⟩ hne hsu harg
  exact this.1 h0

theorem nGood_partition {b : Grid} (hW : Wf b) {i j : Nat} (hi : i < 9) (hj : j < 9)
    (h0 : getCell b i j = 0) :
    nGood b = ∑ v : Fin 9, if is_valid_move b i j (v.val + 1) = true
      then nGood (setCell b i j (v.val + 1)) else 0 := by
  rw [nGood]
  rw [Finset.card_eq_sum_card_fiberwise
    (show ∀ x ∈ Finset.univ.filter (fun d : Digits => goodExt b d),
        (fun d : Digits => d ⟨i, hi⟩ ⟨j, hj⟩) x ∈ (Finset.univ : Finset (Fin 9)) from
      fun d _ => Finset.mem_univ _)]
  apply Finset.sum_congr rfl
  intro v _
  rw [Finset.filter_filter]
  by_cases hvalid : is_valid_move b i j (v.val + 1) = true
  · rw [if_pos hvalid, nGood]
    apply congrArg Finset.card
    apply Finset.filter_congr
    intro d _
    exact (@goodExt_setCell_iff b hW ⟨i, hi⟩ ⟨j, hj⟩ h0 v hvalid d).symm
  · have hinv : is_valid_move b i j (v.val + 1) = false := by
      revert hvalid
      cases is_valid_move b i j (v.val + 1) <;> simp
    rw [if_neg hvalid, Finset.card_eq_zero, Finset.filter_eq_empty_iff]
    intro d _
    exact @goodExt_invalid b ⟨i, hi⟩ ⟨j, hj⟩ h0 v hinv d

/-!  ## From search-reachable assignments to legal solutions -/

theorem goodExt_iff_validCompletion {b : Grid} (hcons : consistent b) (d : Digits) :
    goodExt b d ↔ validCompletion b d := by
  constructor
  · rintro ⟨hagree, hconf⟩
    refine ⟨hagree, fun p q hpq hu ht => ?_⟩
    obtain ⟨hp0, hq0⟩ := hconf p q hpq hu ht
    have hp := hagree p.1 p.2 hp0
    have hq := hagree q.1 q.2 hq0
    exact hcons p q hpq hu hp0 hq0 (by omega)
  · rintro ⟨hagree, hconf⟩
    exact ⟨hagree, fun p q hpq hu ht => absurd ht (hconf p q hpq hu)⟩

theorem nGood_eq_nCompletions {b : Grid} (hcons : consistent b) :
    nGood b = nCompletions b := by
  rw [nGood, nCompletions]
  apply congrArg Finset.card
  apply Finset.filter_congr
  intro d _
  exact goodExt_iff_validCompletion hcons d

theorem sum_fin9_eq_range' (h : Nat → Nat) :
    (∑ v : Fin 9, h (v.val + 1)) = ((List.range' 1 9).map h).sum := by
  rw [show List.range' 1 9 = [1, 2, 3, 4, 5, 6, 7, 8, 9] from rfl]
  simp [Fin.sum_univ_succ]

/-!  ## The counter computes the number of solutions, capped at two -/

theorem countLoop_spec {fuel : Nat}
    (hrec : ∀ g c, Wf g → inRange g → c ≤ 2 → numZeros g < fuel →
      countF fuel g c = some (g, min 2 (c + nGood g)))
    {i j : Nat} (hi : i < 9) (hj : j < 9) :
    ∀ {nums : List Nat} {b : Grid} {cnt : Nat},
      (∀ n ∈ nums, 1 ≤ n ∧ n ≤ 9) → Wf b → inRange b → getCell b i j = 0 →
      numZeros b < fuel + 1 → cnt ≤ 2 →
      countLoop (countF fuel) i j b cnt nums =
        some (b, min 2 (cnt + (nums.map fun n =>
          if is_valid_move b i j n = true then nGood (setCell b i j n) else 0).sum)) := by
  intro nums
  induction nums with
  | nil =>
    intro b cnt _ _ _ _ _ hcnt
    rw [countLoop]
    simp only [List.map_nil, List.sum_nil, Nat.add_zero]
    have : min 2 cnt = cnt := by omega
    rw [this]
  | cons n rest ih =>
    intro b cnt hn hW hR h0 hz hcnt
    rw [countLoop]
    by_cases hv : is_valid_move b i j n = true
    · rw [if_pos hv]
      have hWs := wf_setCell hW i j n
      have hRs := inRange_setCell hW hR (hn n (by simp)).2 i j
      have hzs : numZeros (setCell b i j n) < fuel := by
        have hne : n ≠ 0 := by
          have := (hn n (by simp)).1
          omega
        have h1 := numZeros_setCell hW hi hj h0 hne
        omega
      rw [hrec _ cnt hWs hRs hcnt hzs]
      have hcan : setCell (setCell b i j n) i j 0 = b := by
        have := setCell_cancel hW hi hj n
        rwa [h0] at this
      show countLoop (countF fuel) i j (setCell (setCell b i j n) i j 0)
          (min 2 (cnt + nGood (setCell b i j n))) rest = _
      rw [hcan, ih (fun m hm => hn m (by simp [hm])) hW hR h0 hz (by omega)]
      simp only [List.map_cons, List.sum_cons, if_pos hv]
      exact congrArg (fun x => some (b, x)) (by omega)
    · rw [if_neg hv, ih (fun m hm => hn m (by simp [hm])) hW hR h0 hz hcnt]
      simp only [List.map_cons, List.sum_cons, if_neg hv]
      exact congrArg (fun x => some (b, x)) (by omega)

theorem countF_spec : ∀ {fuel : Nat} {b : Grid} {cnt : Nat}, Wf b → inRange b →
    cnt ≤ 2 → numZeros b < fuel → countF fuel b cnt = some (b, min 2 (cnt + nGood b)) := by
  intro fuel
  induction fuel with
  | zero => intro b cnt _ _ _ h; omega
  | succ f ih =>
    intro b cnt hW hR hcnt hz
    rw [countF]
    by_cases h2 : 1 < cnt
    · rw [if_pos h2]
      have he : min 2 (cnt + nGood b) = cnt := by omega
      rw [he]
    · rw [if_neg h2]
      cases he : findEmpty b with
      | none =>
        have hfull := findEmpty_none he
        rw [nGood_full hW hR hfull]
        have h1 : min 2 (cnt + 1) = cnt + 1 := by omega
        rw [h1]
      | some ij =>
        obtain ⟨i, j⟩ := ij
        obtain ⟨hi, hj, h0⟩ := findEmpty_some he
        show countLoop (countF f) i j b cnt (List.range' 1 9) = _
        rw [countLoop_spec (fun g c hg hr hc hzg => ih hg hr hc hzg) hi hj
          (fun n (hn : n ∈ List.range' 1 9) => by
            have := List.mem_range'_1.mp hn
            omega)
          hW hR h0 (by omega) hcnt]
        rw [nGood_partition hW hi hj h0]
        exact congrArg (fun x => some (b, min 2 (cnt + x)))
          (sum_fin9_eq_range'
            (fun n => if is_valid_move b i j n = true
              then nGood (setCell b i j n) else 0)).symm

/-!  ## The solver finds a reachable assignment exactly when one exists -/

theorem solveELoop_spec {ords : Nat → List Nat} {fuel : Nat}
    (hrec : ∀ g kk, Wf g → inRange g → numZeros g < fuel →
      ∃ b2 r k2, solveEF ords fuel g kk = some (b2, r, k2) ∧
        (r = true → ∃ d, goodExt g d ∧ fills b2 d) ∧
        (r = false → b2 = g ∧ nGood g = 0))
    {i j : Nat} (hi : i < 9) (hj : j < 9) :
    ∀ {nums : List Nat} {b : Grid} {k : Nat},
      (∀ n ∈ nums, 1 ≤ n ∧ n ≤ 9) → Wf b → inRange b → getCell b i j = 0 →
      numZeros b < fuel + 1 →
      ∃ b2 r k2, solveELoop (solveEF ords fuel) i j b k nums = some (b2, r, k2) ∧
        (r = true → ∃ d, goodExt b d ∧ fills b2 d) ∧
        (r = false → b2 = b ∧ ∀ n ∈ nums, is_valid_move b i j n = true →
          nGood (setCell b i j n) = 0) := by
  intro nums
  induction nums with
  | nil =>
    intro b k _ _ _ _ _
    exact ⟨b, false, k, rfl, fun hc => Bool.noConfusion hc, fun _ => ⟨rfl, by simp⟩⟩
  | cons n rest ih =>
    intro b k hn hW hR h0 hz
    by_cases hv : is_valid_move b i j n = true
    · have hWs := wf_setCell hW i j n
      have hRs := inRange_setCell hW hR (hn n (by simp)).2 i j
      have hne0 : n ≠ 0 := by
        have := (hn n (by simp)).1
        omega
      have hzs : numZeros (setCell b i j n) < fuel := by
        have h1 := numZeros_setCell hW hi hj h0 hne0
        omega
      have hcan : setCell (setCell b i j n) i j 0 = b := by
        have := setCell_cancel hW hi hj n
        rwa [h0] at this
      obtain ⟨b2, r, k2, heq, htrue, hfalse⟩ := hrec (setCell b i j n) k hWs hRs hzs
      obtain ⟨v, hvval⟩ : ∃ v : Fin 9, v.val + 1 = n :=
        ⟨⟨n - 1, by have := (hn n (by simp)).2; omega⟩, show n - 1 + 1 = n by omega⟩
      cases r with
      | true =>
        refine ⟨b2, true, k2, ?_, ?_, fun hc => Bool.noConfusion hc⟩
        · rw [solveELoop, if_pos hv, heq]
        · intro _
          obtain ⟨d, hd, hfill⟩ := htrue rfl
          refine ⟨d, ?_, hfill⟩
          rw [← hvval] at hv hd
          exact ((@goodExt_setCell_iff b hW ⟨i, hi⟩ ⟨j, hj⟩ h0 v hv d).mp hd).1
      | false =>
        obtain ⟨hb2, hng⟩ := hfalse rfl
        obtain ⟨b3, r3, k3, heq3, ht3, hf3⟩ :=
          @ih b k2 (fun m hm => hn m (by simp [hm])) hW hR h0 hz
        refine ⟨b3, r3, k3, ?_, ht3, ?_⟩
        · rw [solveELoop, if_pos hv, heq]
          show solveELoop (solveEF ords fuel) i j (setCell b2 i j 0) k2 rest = _
          rw [hb2, hcan]
          exact heq3
        · intro hr3
          obtain ⟨hb3, hall⟩ := hf3 hr3
          refine ⟨hb3, fun m hm hvm => ?_⟩
          rcases List.mem_cons.mp hm with rfl | hmrest
          · exact hng
          · exact hall m hmrest hvm
    · obtain ⟨b3, r3, k3, heq3, ht3, hf3⟩ :=
        @ih b k (fun m hm => hn m (by simp [hm])) hW hR h0 hz
      refine ⟨b3, r3, k3, ?_, ht3, ?_⟩
      · rw [solveELoop, if_neg hv]
        exact heq3
      · intro hr3
        obtain ⟨hb3, hall⟩ := hf3 hr3
        refine ⟨hb3, fun m hm hvm => ?_⟩
        rcases List.mem_cons.mp hm with rfl | hmrest
        · exact absurd hvm hv
        · exact hall m hmrest hvm

theorem solveEF_spec {ords : Nat → List Nat}
    (hperm : ∀ m, (ords m).Perm (List.range' 1 9)) :
    ∀ {fuel : Nat} {b : Grid} {k : Nat}, Wf b → inRange b → numZeros b < fuel →
      ∃ b2 r k2, solveEF ords fuel b k = some (b2, r, k2) ∧
        (r = true → ∃ d, goodExt b d ∧ fills b2 d) ∧
        (r = false → b2 = b ∧ nGood b = 0) := by
  intro fuel
  induction fuel with
  | zero => intro b k _ _ h; omega
  | succ f ih =>
    intro b k hW hR hz
    cases he : findEmpty b with
    | none =>
      have hfull := findEmpty_none he
      obtain ⟨hgood, hfill⟩ := goodExt_full hW hR hfull
      refine ⟨b, true, k, ?_, fun _ => ⟨digitsOfGrid b, hgood, hfill⟩,
        fun hc => Bool.noConfusion hc⟩
      rw [solveEF, he]
    | some ij =>
      obtain ⟨i, j⟩ := ij
      obtain ⟨hi, hj, h0⟩ := findEmpty_some he
      have hnums : ∀ n ∈ ords k, 1 ≤ n ∧ n ≤ 9 := by
        intro n hn
        have := List.mem_range'_1.mp ((hperm k).mem_iff.mp hn)
        omega
      obtain ⟨b2, r, k2, heq, ht, hf⟩ :=
        @solveELoop_spec ords f (fun g kk hg hr hzg => ih hg hr hzg) i j hi hj
          (ords k) b (k + 1) hnums hW hR h0 (by omega)
      refine ⟨b2, r, k2, ?_, ht, ?_⟩
      · rw [solveEF, he]
        exact heq
      · intro hr
        obtain ⟨hb2, hall⟩ := hf hr
        refine ⟨hb2, ?_⟩
        rw [nGood_partition hW hi hj h0]
        apply Finset.sum_eq_zero
        intro v _
        by_cases hvv : is_valid_move b i j (v.val + 1) = true
        · rw [if_pos hvv]
          refine hall (v.val + 1) ?_ hvv
          refine (hperm k).mem_iff.mpr (List.mem_range'_1.mpr ⟨by omega, ?_⟩)
          have := v.isLt
          omega
        · rw [if_neg hvv]

/-!  ## The diagonal-box prefill -/

theorem getCell_emptyGrid (i j : Nat) : getCell emptyGrid i j = 0 := by
  have hrow : ∀ m : Nat, (List.replicate 9 (0 : Nat)).getD m 0 = 0 := by
    intro m
    by_cases hm : m < 9
    · rw [List.getD_eq_getElem?_getD,
        List.getElem?_eq_getElem (by simpa using hm), List.getElem_replicate]
      rfl
    · rw [List.getD_eq_getElem?_getD, List.getElem?_eq_none (by simpa using hm)]
      rfl
  unfold getCell emptyGrid
  by_cases hi : i < 9
  · rw [getD_row, List.getElem?_eq_getElem (by simpa using hi)]
    simp only [Option.getD_some, List.getElem_replicate]
    exact hrow j
  · rw [getD_row, List.getElem?_eq_none (by simpa using hi)]
    rfl

theorem wf_emptyGrid : Wf emptyGrid := by decide

theorem setCell_restore {p : Grid} (hW : Wf p) (i j : Nat) :
    setCell (setCell p i j 0) i j (getCell p i j) = p := by
  by_cases hi : i < 9
  · by_cases hj : j < 9
    · exact setCell_cancel hW hi hj 0
    · have hrow : ∀ v, (p.getD i []).set j v = p.getD i [] := by
        intro v
        exact List.set_eq_of_length_le (by rw [hW.2 i hi]; omega)
      have hid : ∀ v, setCell p i j v = p := by
        intro v
        rw [setCell, hrow, rowset_getD_self (by rw [hW.1]; omega)]
      rw [hid, hid]
  · have hid : ∀ v, setCell p i j v = p := by
      intro v
      rw [setCell, List.set_eq_of_length_le (by rw [hW.1]; omega)]
    rw [hid, hid]

theorem fillBox_wf {b : Grid} (hW : Wf b) (box : Nat) (nums : List Nat) :
    Wf (fillBox b box nums) := by
  have h : ∀ (l : List Nat) (g : Grid), Wf g →
      Wf (l.foldl (fun g k =>
        setCell g (box + k / 3) (box + k % 3) (nums.getD (8 - k) 0)) g) := by
    intro l
    induction l with
    | nil => exact fun g h => h
    | cons k rest ih => exact fun g hg => ih _ (wf_setCell hg _ _ _)
  exact h _ b hW

theorem getD_le_nine {nums : List Nat} (hnums : ∀ x ∈ nums, x ≤ 9) (m : Nat) :
    nums.getD m 0 ≤ 9 := by
  by_cases hm : m < nums.length
  · rw [List.getD_eq_getElem?_getD, List.getElem?_eq_getElem hm]
    exact hnums _ (List.getElem_mem hm)
  · rw [List.getD_eq_getElem?_getD, List.getElem?_eq_none (by omega)]
    simp

theorem fillBox_inRange {b : Grid} (hW : Wf b) (hR : inRange b) {box : Nat}
    {nums : List Nat} (hnums : ∀ x ∈ nums, x ≤ 9) :
    inRange (fillBox b box nums) := by
  have h : ∀ (l : List Nat) (g : Grid), Wf g → inRange g →
      inRange (l.foldl (fun g k =>
        setCell g (box + k / 3) (box + k % 3) (nums.getD (8 - k) 0)) g) := by
    intro l
    induction l with
    | nil => exact fun g _ h => h
    | cons k rest ih =>
      exact fun g hg hr =>
        ih _ (wf_setCell hg _ _ _) (inRange_setCell hg hr (getD_le_nine hnums _) _ _)
  exact h _ b hW hR

theorem getCell_foldl_ne {box : Nat} {nums : List Nat} {i j : Nat} :
    ∀ (l : List Nat) (b : Grid), (∀ k ∈ l, ¬(box + k / 3 = i ∧ box + k % 3 = j)) →
      getCell (l.foldl (fun g k =>
        setCell g (box + k / 3) (box + k % 3) (nums.getD (8 - k) 0)) b) i j =
        getCell b i j := by
  intro l
  induction l with
  | nil => exact fun b _ => rfl
  | cons k rest ih =>
    intro b hall
    rw [List.foldl_cons, ih _ (fun k' h => hall k' (by simp [h]))]
    refine getCell_setCell_ne ?_ _
    have := hall k (by simp)
    tauto

theorem getCell_foldl_inside {box : Nat} {nums : List Nat} (hbox : box ≤ 6) :
    ∀ (l : List Nat) {b : Grid}, Wf b → ∀ {k0 : Nat}, k0 ∈ l → k0 < 9 →
      (∀ k ∈ l, k < 9) → l.Nodup →
      getCell (l.foldl (fun g k =>
        setCell g (box + k / 3) (box + k % 3) (nums.getD (8 - k) 0)) b)
        (box + k0 / 3) (box + k0 % 3) = nums.getD (8 - k0) 0 := by
  intro l
  induction l with
  | nil => intro b _ k0 h; simp at h
  | cons k rest ih =>
    intro b hW k0 hmem hk9 hall hnd
    rcases List.mem_cons.mp hmem with rfl | hmemr
    · rw [List.foldl_cons]
      rw [getCell_foldl_ne rest _ ?miss]
      case miss =>
        intro k' hk'
        rintro ⟨h1, h2⟩
        have hk'9 := hall k' (by simp [hk'])
        have hkk : k' = k0 := by omega
        subst hkk
        exact (List.nodup_cons.mp hnd).1 hk'
      exact getCell_setCell_self hW (by omega) (by omega) _
    · rw [List.foldl_cons]
      exact ih (wf_setCell hW _ _ _) hmemr hk9
        (fun k' h => hall k' (by simp [h])) (List.nodup_cons.mp hnd).2

theorem getCell_fillBox_inside {b : Grid} (hW : Wf b) {box : Nat} (hbox : box ≤ 6)
    {a c : Nat} (ha : a < 3) (hc : c < 3) (nums : List Nat) :
    getCell (fillBox b box nums) (box + a) (box + c) =
      nums.getD (8 - (3 * a + c)) 0 := by
  have h9 : 3 * a + c ∈ List.range 9 := List.mem_range.mpr (by omega)
  have := @getCell_foldl_inside box nums hbox (List.range 9) b hW (3 * a + c) h9
    (by omega) (fun k hk => List.mem_range.mp hk) (List.nodup_range 9)
  rw [show (3 * a + c) / 3 = a by omega, show (3 * a + c) % 3 = c by omega] at this
  exact this

theorem getCell_fillBox_outside {b : Grid} {box : Nat} {nums : List Nat} {i j : Nat}
    (h : ∀ k < 9, ¬(box + k / 3 = i ∧ box + k % 3 = j)) :
    getCell (fillBox b box nums) i j = getCell b i j :=
  getCell_foldl_ne (List.range 9) b (fun k hk => h k (List.mem_range.mp hk))

theorem diagBoard_wf (p0 p1 p2 : List Nat) : Wf (diagBoard p0 p1 p2) :=
  fillBox_wf (fillBox_wf (fillBox_wf wf_emptyGrid 0 p0) 3 p1) 6 p2

theorem diagBoard_inRange {p0 p1 p2 : List Nat} (h0 : ∀ x ∈ p0, x ≤ 9)
    (h1 : ∀ x ∈ p1, x ≤ 9) (h2 : ∀ x ∈ p2, x ≤ 9) :
    inRange (diagBoard p0 p1 p2) :=
  fillBox_inRange (fillBox_wf (fillBox_wf wf_emptyGrid 0 p0) 3 p1)
    (fillBox_inRange (fillBox_wf wf_emptyGrid 0 p0)
      (fillBox_inRange wf_emptyGrid (fun i _ j _ => by rw [getCell_emptyGrid]; omega) h0)
      h1)
    h2

theorem getCell_diagBoard {p0 p1 p2 : List Nat} {i j : Nat} :
    getCell (diagBoard p0 p1 p2) i j =
      if i < 3 ∧ j < 3 then p0.getD (8 - (3 * i + j)) 0
      else if 3 ≤ i ∧ i < 6 ∧ 3 ≤ j ∧ j < 6 then p1.getD (8 - (3 * (i - 3) + (j - 3))) 0
      else if 6 ≤ i ∧ i < 9 ∧ 6 ≤ j ∧ j < 9 then p2.getD (8 - (3 * (i - 6) + (j - 6))) 0
      else 0 := by
  unfold diagBoard
  by_cases c0 : i < 3 ∧ j < 3
  · rw [if_pos c0]
    rw [getCell_fillBox_outside (fun k hk => by omega)]
    rw [getCell_fillBox_outside (fun k hk => by omega)]
    have := getCell_fillBox_inside wf_emptyGrid (show (0 : Nat) ≤ 6 by omega)
      c0.1 c0.2 p0
    simpa using this
  · rw [if_neg c0]
    by_cases c1 : 3 ≤ i ∧ i < 6 ∧ 3 ≤ j ∧ j < 6
    · rw [if_pos c1]
      rw [getCell_fillBox_outside (fun k hk => by omega)]
      have hW1 : Wf (fillBox emptyGrid 0 p0) := fillBox_wf wf_emptyGrid 0 p0
      have := getCell_fillBox_inside hW1 (show (3 : Nat) ≤ 6 by omega)
        (show i - 3 < 3 by omega) (show j - 3 < 3 by omega) p1
      rw [show 3 + (i - 3) = i by omega, show 3 + (j - 3) = j by omega] at this
      exact this
    · rw [if_neg c1]
      by_cases c2 : 6 ≤ i ∧ i < 9 ∧ 6 ≤ j ∧ j < 9
      · rw [if_pos c2]
        have hW2 : Wf (fillBox (fillBox emptyGrid 0 p0) 3 p1) :=
          fillBox_wf (fillBox_wf wf_emptyGrid 0 p0) 3 p1
        have := getCell_fillBox_inside hW2 (show (6 : Nat) ≤ 6 by omega)
          (show i - 6 < 3 by omega) (show j - 6 < 3 by omega) p2
        rw [show 6 + (i - 6) = i by omega, show 6 + (j - 6) = j by omega] at this
        exact this
      · rw [if_neg c2]
        rw [getCell_fillBox_outside (fun k hk => by omega)]
        rw [getCell_fillBox_outside (fun k hk => by omega)]
        rw [getCell_fillBox_outside (fun k hk => by omega)]
        exact getCell_emptyGrid i j

theorem diagBoard_zero_cell (p0 p1 p2 : List Nat) :
    getCell (diagBoard p0 p1 p2) 0 3 = 0 := by
  rw [getCell_diagBoard]
  norm_num

theorem getD_inj_of_perm {l : List Nat} (hp : l.Perm (List.range' 1 9))
    {m m' : Nat} (hm : m < 9) (hm' : m' < 9) (he : l.getD m 0 = l.getD m' 0) :
    m = m' := by
  have hlen : l.length = 9 := by simpa using hp.length_eq
  have hnd : l.Nodup := hp.nodup_iff.mpr (List.nodup_range' ..)
  have hml : m < l.length := by omega
  have hml2 : m' < l.length := by omega
  have e1 : l.getD m 0 = l.get ⟨m, hml⟩ := by
    rw [List.getD_eq_getElem?_getD, List.getElem?_eq_getElem hml]
    rfl
  have e2 : l.getD m' 0 = l.get ⟨m', hml2⟩ := by
    rw [List.getD_eq_getElem?_getD, List.getElem?_eq_getElem hml2]
    rfl
  rw [e1, e2, List.get_eq_getElem, List.get_eq_getElem] at he
  exact (List.Nodup.getElem_inj_iff hnd).mp he

theorem diagBoard_consistent {p0 p1 p2 : List Nat}
    (h0 : p0.Perm (List.range' 1 9)) (h1 : p1.Perm (List.range' 1 9))
    (h2 : p2.Perm (List.range' 1 9)) :
    consistent (diagBoard p0 p1 p2) := by
  intro p q hpq hu hz1 hz2 he
  have hip := p.1.isLt
  have hjp := p.2.isLt
  have hiq := q.1.isLt
  have hjq := q.2.isLt
  have hne : p.1.val ≠ q.1.val ∨ p.2.val ≠ q.2.val := by
    by_contra hcon
    push_neg at hcon
    exact hpq (Prod.ext (Fin.ext hcon.1) (Fin.ext hcon.2))
  have hreg : ∀ i j : Nat, i < 9 → j < 9 → getCell (diagBoard p0 p1 p2) i j ≠ 0 →
      (i < 3 ∧ j < 3) ∨ (3 ≤ i ∧ i < 6 ∧ 3 ≤ j ∧ j < 6) ∨
        (6 ≤ i ∧ i < 9 ∧ 6 ≤ j ∧ j < 9) := by
    intro i j hi hj hz
    by_cases cA : i < 3 ∧ j < 3
    · exact Or.inl cA
    · by_cases cB : 3 ≤ i ∧ i < 6 ∧ 3 ≤ j ∧ j < 6
      · exact Or.inr (Or.inl cB)
      · by_cases cC : 6 ≤ i ∧ i < 9 ∧ 6 ≤ j ∧ j < 9
        · exact Or.inr (Or.inr cC)
        · exact absurd (by rw [getCell_diagBoard, if_neg cA, if_neg cB, if_neg cC]) hz
  have hup : p.1.val = q.1.val ∨ p.2.val = q.2.val ∨
      (p.1.val / 3 = q.1.val / 3 ∧ p.2.val / 3 = q.2.val / 3) := hu
  have eA : ∀ i j : Nat, i < 3 ∧ j < 3 →
      getCell (diagBoard p0 p1 p2) i j = p0.getD (8 - (3 * i + j)) 0 := by
    intro i j hc
    rw [getCell_diagBoard, if_pos hc]
  have eB : ∀ i j : Nat, 3 ≤ i ∧ i < 6 ∧ 3 ≤ j ∧ j < 6 →
      getCell (diagBoard p0 p1 p2) i j = p1.getD (8 - (3 * (i - 3) + (j - 3))) 0 := by
    intro i j hc
    rw [getCell_diagBoard]
    rw [if_neg (by omega), if_pos hc]
  have eC : ∀ i j : Nat, 6 ≤ i ∧ i < 9 ∧ 6 ≤ j ∧ j < 9 →
      getCell (diagBoard p0 p1 p2) i j = p2.getD (8 - (3 * (i - 6) + (j - 6))) 0 := by
    intro i j hc
    rw [getCell_diagBoard]
    rw [if_neg (by omega), if_neg (by omega), if_pos hc]
  rcases hreg _ _ hip hjp hz1 with cp | cp | cp <;>
    rcases hreg _ _ hiq hjq hz2 with cq | cq | cq
  · rw [eA _ _ cp, eA _ _ cq] at he
    have := getD_inj_of_perm h0 (show 8 - (3 * p.1.val + p.2.val) < 9 by omega)
      (show 8 - (3 * q.1.val + q.2.val) < 9 by omega) he
    omega
  · omega
  · omega
  · omega
  · rw [eB _ _ cp, eB _ _ cq] at he
    have := getD_inj_of_perm h1
      (show 8 - (3 * (p.1.val - 3) + (p.2.val - 3)) < 9 by omega)
      (show 8 - (3 * (q.1.val - 3) + (q.2.val - 3)) < 9 by omega) he
    omega
  · omega
  · omega
  · omega
  · rw [eC _ _ cp, eC _ _ cq] at he
    have := getD_inj_of_perm h2
      (show 8 - (3 * (p.1.val - 6) + (p.2.val - 6)) < 9 by omega)
      (show 8 - (3 * (q.1.val - 6) + (q.2.val - 6)) < 9 by omega) he
    omega

/-!  ## The ascending solver is the randomized solver with the identity order -/

theorem solveLoop_eq_E {fuel : Nat}
    (hrec : ∀ g kk, solveF fuel g =
      (solveEF (fun _ => List.range' 1 9) fuel g kk).map (fun x => (x.1, x.2.1)))
    {i j : Nat} :
    ∀ (nums : List Nat) (b : Grid) (k : Nat),
      solveLoop (solveF fuel) i j b nums =
        (solveELoop (solveEF (fun _ => List.range' 1 9) fuel) i j b k nums).map
          (fun x => (x.1, x.2.1)) := by
  intro nums
  induction nums with
  | nil => intro b k; rfl
  | cons n rest ih =>
    intro b k
    rw [solveLoop, solveELoop]
    by_cases hv : is_valid_move b i j n = true
    · rw [if_pos hv, if_pos hv, hrec (setCell b i j n) k]
      cases he : solveEF (fun _ => List.range' 1 9) fuel (setCell b i j n) k with
      | none => rfl
      | some x =>
        obtain ⟨b2, r, k2⟩ := x
        cases r with
        | true => rfl
        | false =>
          show solveLoop (solveF fuel) i j (setCell b2 i j 0) rest = _
          exact ih _ _
    · rw [if_neg hv, if_neg hv]
      exact ih _ _

theorem solveF_eq_EF : ∀ (fuel : Nat) (b : Grid) (k : Nat),
    solveF fuel b =
      (solveEF (fun _ => List.range' 1 9) fuel b k).map (fun x => (x.1, x.2.1)) := by
  intro fuel
  induction fuel with
  | zero => intro b k; rfl
  | succ f ih =>
    intro b k
    rw [solveF, solveEF]
    cases he : findEmpty b with
    | none => rfl
    | some ij =>
      obtain ⟨i, j⟩ := ij
      exact solveLoop_eq_E (fun g kk => ih g kk) (List.range' 1 9) b (k + 1)

theorem solveF_spec {b : Grid} (hW : Wf b) (hR : inRange b) {fuel : Nat}
    (hz : numZeros b < fuel) :
    ∃ b2 r, solveF fuel b = some (b2, r) ∧
      (r = true → ∃ d, goodExt b d ∧ fills b2 d) ∧
      (r = false → b2 = b ∧ nGood b = 0) := by
  have hperm : ∀ m : Nat, ((fun _ => List.range' 1 9) m).Perm (List.range' 1 9) :=
    fun _ => List.Perm.refl _
  obtain ⟨b2, r, k2, heq, ht, hf⟩ := @solveEF_spec _ hperm fuel b 0 hW hR hz
  refine ⟨b2, r, ?_, ht, hf⟩
  rw [solveF_eq_EF fuel b 0, heq]
  rfl

/-!  ## Wrapper facts and small consequences -/

theorem nGood_pos_of_goodExt {b : Grid} {d : Digits} (hd : goodExt b d) :
    0 < nGood b := by
  rw [nGood, Finset.card_pos]
  refine ⟨d, ?_⟩
  simp only [Finset.mem_filter, Finset.mem_univ, true_and]
  exact hd


set_option linter.constructorNameAsVariable false in
theorem goodExt_unique {b : Grid} {d d' : Digits} (h1 : nGood b = 1)
    (hd : goodExt b d) (hd' : goodExt b d') : d = d' := by
  rw [nGood, Finset.card_eq_one] at h1
  obtain ⟨a, ha⟩ := h1
  have e1 : d = a := by
    have hm : d ∈ Finset.univ.filter (fun x : Digits => goodExt b x) := by
      simp only [Finset.mem_filter, Finset.mem_univ, true_and]
      exact hd
    rw [ha] at hm
    exact Finset.mem_singleton.mp hm
  have e2 : d' = a := by
    have hm : d' ∈ Finset.univ.filter (fun x : Digits => goodExt b x) := by
      simp only [Finset.mem_filter, Finset.mem_univ, true_and]
      exact hd'
    rw [ha] at hm
    exact Finset.mem_singleton.mp hm
  rw [e1, e2]

theorem numZeros_eq_zero_of_fills {g : Grid} {d : Digits} (hf : fills g d) :
    numZeros g = 0 := by
  rw [numZeros, Finset.card_eq_zero, Finset.filter_eq_empty_iff]
  intro k hk
  have hk81 := Finset.mem_range.mp hk
  have hcell : getCell g (k / 9) (k % 9) =
      toVal d ⟨k / 9, by omega⟩ ⟨k % 9, by omega⟩ :=
    hf.2 ⟨k / 9, by omega⟩ ⟨k % 9, by omega⟩
  intro h0
  exact toVal_pos d _ _ (by rw [← hcell]; exact h0)

theorem inRange_of_fills {g : Grid} {d : Digits} (hf : fills g d) : inRange g := by
  intro i hi j hj
  have hcell : getCell g i j = toVal d ⟨i, hi⟩ ⟨j, hj⟩ := hf.2 ⟨i, hi⟩ ⟨j, hj⟩
  rw [hcell]
  exact toVal_le_nine d _ _

theorem count_solutions_eq {b : Grid} (hW : Wf b) (hR : inRange b) :
    count_solutions b = min 2 (nGood b) := by
  rw [count_solutions,
    countF_spec hW hR (show (0 : Nat) ≤ 2 by omega) (numZeros_lt_82 b)]
  show min 2 (0 + nGood b) = min 2 (nGood b)
  omega

theorem solve_sudoku_spec {b : Grid} (hW : Wf b) (hR : inRange b) :
    ∃ b2 r, solve_sudoku b = (b2, r) ∧
      (r = true → ∃ d, goodExt b d ∧ fills b2 d) ∧
      (r = false → b2 = b ∧ nGood b = 0) := by
  obtain ⟨b2, r, heq, ht, hf⟩ := solveF_spec hW hR (numZeros_lt_82 b)
  refine ⟨b2, r, ?_, ht, hf⟩
  rw [solve_sudoku, heq]
  rfl

theorem setCell_oob {p : Grid} (hW : Wf p) {i j : Nat} (h : ¬(i < 9 ∧ j < 9))
    (v : Nat) : setCell p i j v = p := by
  by_cases hi : i < 9
  · have hj : ¬ j < 9 := fun hj => h ⟨hi, hj⟩
    have hrow : (p.getD i []).set j v = p.getD i [] :=
      List.set_eq_of_length_le (show (p.getD i []).length ≤ j by rw [hW.2 i hi]; omega)
    rw [setCell, hrow]
    exact rowset_getD_self (show i < p.length by rw [hW.1]; omega)
  · rw [setCell]
    exact List.set_eq_of_length_le (show p.length ≤ i by rw [hW.1]; omega)

theorem numZeros_setCell_le {b : Grid} (hW : Wf b) (i j : Nat) :
    numZeros (setCell b i j 0) ≤ numZeros b + 1 := by
  by_cases hib : i < 9 ∧ j < 9
  · rw [numZeros, numZeros]
    have hsub : (Finset.range 81).filter
          (fun k => getCell (setCell b i j 0) (k / 9) (k % 9) = 0) ⊆
        ((Finset.range 81).filter (fun k => getCell b (k / 9) (k % 9) = 0)) ∪
          {9 * i + j} := by
      intro k hk
      rw [Finset.mem_filter] at hk
      obtain ⟨hk81, hz⟩ := hk
      have hk81' := Finset.mem_range.mp hk81
      by_cases hkij : k = 9 * i + j
      · exact Finset.mem_union_right _ (Finset.mem_singleton.mpr hkij)
      · refine Finset.mem_union_left _ (Finset.mem_filter.mpr ⟨hk81, ?_⟩)
        have hne : k / 9 ≠ i ∨ k % 9 ≠ j := by omega
        rwa [getCell_setCell_ne hne] at hz
    calc ((Finset.range 81).filter
          (fun k => getCell (setCell b i j 0) (k / 9) (k % 9) = 0)).card
        ≤ (((Finset.range 81).filter (fun k => getCell b (k / 9) (k % 9) = 0)) ∪
            {9 * i + j}).card := Finset.card_le_card hsub
      _ ≤ ((Finset.range 81).filter
            (fun k => getCell b (k / 9) (k % 9) = 0)).card + 1 := by
          have := Finset.card_union_le
            ((Finset.range 81).filter (fun k => getCell b (k / 9) (k % 9) = 0))
            ({9 * i + j} : Finset Nat)
          simpa using this
  · rw [setCell_oob hW hib]
    omega

/-!  ## The removal loop -/

theorem removeLoop_nil (rm tg : Nat) (p : Grid) : removeLoop [] rm tg p = p := rfl

theorem removeLoop_cons (rc : Nat × Nat) (rest : List (Nat × Nat)) (rm tg : Nat)
    (p : Grid) :
    removeLoop (rc :: rest) rm tg p =
      if tg ≤ rm then p
      else if count_solutions (setCell p rc.1 rc.2 0) = 1
        then removeLoop rest (rm + 1) tg (setCell p rc.1 rc.2 0)
        else removeLoop rest rm tg
          (setCell (setCell p rc.1 rc.2 0) rc.1 rc.2 (getCell p rc.1 rc.2)) := rfl

theorem removeLoop_props :
    ∀ (cells : List (Nat × Nat)) (rm tg : Nat) {p : Grid}, Wf p → inRange p →
      count_solutions p = 1 →
      Wf (removeLoop cells rm tg p) ∧ inRange (removeLoop cells rm tg p) ∧
        count_solutions (removeLoop cells rm tg p) = 1 := by
  intro cells
  induction cells with
  | nil => exact fun rm tg p hW hR hc => ⟨hW, hR, hc⟩
  | cons rc rest ih =>
    intro rm tg p hW hR hc
    rw [removeLoop_cons]
    by_cases hstop : tg ≤ rm
    · rw [if_pos hstop]
      exact ⟨hW, hR, hc⟩
    · rw [if_neg hstop]
      by_cases hcount : count_solutions (setCell p rc.1 rc.2 0) = 1
      · rw [if_pos hcount]
        exact ih _ _ (wf_setCell hW _ _ _)
          (inRange_setCell hW hR (by omega) _ _) hcount
      · rw [if_neg hcount, setCell_restore hW rc.1 rc.2]
        exact ih _ _ hW hR hc

theorem removeLoop_sub :
    ∀ (cells : List (Nat × Nat)) (rm tg : Nat) {p : Grid}, Wf p →
      ∀ i, i < 9 → ∀ j, j < 9 →
      getCell (removeLoop cells rm tg p) i j ≠ 0 →
      getCell (removeLoop cells rm tg p) i j = getCell p i j := by
  intro cells
  induction cells with
  | nil => exact fun rm tg p _ i _ j _ _ => rfl
  | cons rc rest ih =>
    intro rm tg p hW i hi j hj hnz
    rw [removeLoop_cons] at hnz ⊢
    by_cases hstop : tg ≤ rm
    · rw [if_pos hstop] at hnz ⊢
    · rw [if_neg hstop] at hnz ⊢
      by_cases hcount : count_solutions (setCell p rc.1 rc.2 0) = 1
      · rw [if_pos hcount] at hnz ⊢
        have hstep := ih _ _ (wf_setCell hW _ _ _) i hi j hj hnz
        rw [hstep] at hnz ⊢
        by_cases hij : rc.1 = i ∧ rc.2 = j
        · exfalso
          rw [hij.1, hij.2] at hnz
          rw [getCell_setCell_self hW hi hj] at hnz
          exact hnz rfl
        · exact getCell_setCell_ne (by tauto) 0
      · rw [if_neg hcount, setCell_restore hW rc.1 rc.2] at hnz ⊢
        exact ih _ _ hW i hi j hj hnz

theorem removeLoop_zeros :
    ∀ (cells : List (Nat × Nat)) (rm tg : Nat) {p : Grid}, Wf p →
      numZeros (removeLoop cells rm tg p) ≤ numZeros p + (tg - rm) := by
  intro cells
  induction cells with
  | nil =>
    intro rm tg p _
    rw [removeLoop_nil]
    omega
  | cons rc rest ih =>
    intro rm tg p hW
    rw [removeLoop_cons]
    by_cases hstop : tg ≤ rm
    · rw [if_pos hstop]
      omega
    · rw [if_neg hstop]
      by_cases hcount : count_solutions (setCell p rc.1 rc.2 0) = 1
      · rw [if_pos hcount]
        have h1 := ih (rm + 1) tg (wf_setCell hW rc.1 rc.2 0)
        have h2 := numZeros_setCell_le hW rc.1 rc.2
        omega
      · rw [if_neg hcount, setCell_restore hW rc.1 rc.2]
        have := ih rm tg hW
        omega

/-!  ## Complete-board generation -/

theorem perm_le_nine {l : List Nat} (hp : l.Perm (List.range' 1 9)) :
    ∀ x ∈ l, x ≤ 9 := by
  intro x hx
  have := List.mem_range'_1.mp (hp.mem_iff.mp hx)
  omega

theorem validCompletion_goodExt {b : Grid} {d : Digits} (h : validCompletion b d) :
    goodExt b d :=
  ⟨h.1, fun p q hpq hu ht => absurd ht (h.2 p q hpq hu)⟩

theorem generate_complete_board_enh_spec {p0 p1 p2 : List Nat} {ords : Nat → List Nat}
    (h0 : p0.Perm (List.range' 1 9)) (h1 : p1.Perm (List.range' 1 9))
    (h2 : p2.Perm (List.range' 1 9))
    (hords : ∀ m, (ords m).Perm (List.range' 1 9))
    (hcomplete : numZeros (generate_complete_board_enh p0 p1 p2 ords) = 0) :
    ∃ d, fills (generate_complete_board_enh p0 p1 p2 ords) d ∧ legalAssign d := by
  have hW := diagBoard_wf p0 p1 p2
  have hR := diagBoard_inRange (perm_le_nine h0) (perm_le_nine h1) (perm_le_nine h2)
  obtain ⟨b2, r, k2, heq, ht, hf⟩ :=
    @solveEF_spec ords hords 82 (diagBoard p0 p1 p2) 0 hW hR (numZeros_lt_82 _)
  have hcb : generate_complete_board_enh p0 p1 p2 ords = b2 := by
    unfold generate_complete_board_enh
    rw [heq]
  rw [hcb] at hcomplete ⊢
  cases r with
  | false =>
    exfalso
    obtain ⟨hb2, _⟩ := hf rfl
    rw [hb2] at hcomplete
    have := numZeros_pos (show (0 : Nat) < 9 by omega) (show (3 : Nat) < 9 by omega)
      (diagBoard_zero_cell p0 p1 p2)
    omega
  | true =>
    obtain ⟨d, hgood, hfill⟩ := ht rfl
    exact ⟨d, hfill,
      ((goodExt_iff_validCompletion (diagBoard_consistent h0 h1 h2) d).mp hgood).2⟩

theorem generate_complete_board_spec {p0 p1 p2 : List Nat}
    (h0 : p0.Perm (List.range' 1 9)) (h1 : p1.Perm (List.range' 1 9))
    (h2 : p2.Perm (List.range' 1 9))
    (hcomplete : numZeros (generate_complete_board p0 p1 p2) = 0) :
    ∃ d, fills (generate_complete_board p0 p1 p2) d ∧ legalAssign d := by
  have hW := diagBoard_wf p0 p1 p2
  have hR := diagBoard_inRange (perm_le_nine h0) (perm_le_nine h1) (perm_le_nine h2)
  obtain ⟨b2, r, heq, ht, hf⟩ := solveF_spec hW hR (numZeros_lt_82 (diagBoard p0 p1 p2))
  have hcb : generate_complete_board p0 p1 p2 = b2 := by
    unfold generate_complete_board
    rw [heq]
  rw [hcb] at hcomplete ⊢
  cases r with
  | false =>
    exfalso
    obtain ⟨hb2, _⟩ := hf rfl
    rw [hb2] at hcomplete
    have := numZeros_pos (show (0 : Nat) < 9 by omega) (show (3 : Nat) < 9 by omega)
      (diagBoard_zero_cell p0 p1 p2)
    omega
  | true =>
    obtain ⟨d, hgood, hfill⟩ := ht rfl
    exact ⟨d, hfill,
      ((goodExt_iff_validCompletion (diagBoard_consistent h0 h1 h2) d).mp hgood).2⟩

theorem fills_nonzero {g : Grid} {d : Digits} (hf : fills g d) :
    ∀ i < 9, ∀ j < 9, getCell g i j ≠ 0 := by
  intro i hi j hj
  have hcell : getCell g i j = toVal d ⟨i, hi⟩ ⟨j, hj⟩ := hf.2 ⟨i, hi⟩ ⟨j, hj⟩
  rw [hcell]
  exact toVal_pos d _ _

theorem count_of_fills {g : Grid} {d : Digits} (hf : fills g d) :
    count_solutions g = 1 := by
  rw [count_solutions_eq hf.1 (inRange_of_fills hf),
    nGood_full hf.1 (inRange_of_fills hf) (fills_nonzero hf)]
  omega

/-!  ## The enhanced puzzle construction -/

theorem create_puzzle_spec {p0 p1 p2 : List Nat} {ords : Nat → List Nat}
    {cells : List (Nat × Nat)} {diff : Difficulty}
    (h0 : p0.Perm (List.range' 1 9)) (h1 : p1.Perm (List.range' 1 9))
    (h2 : p2.Perm (List.range' 1 9))
    (hords : ∀ m, (ords m).Perm (List.range' 1 9))
    (hcomplete : numZeros (create_puzzle p0 p1 p2 ords cells diff).2 = 0) :
    count_solutions (create_puzzle p0 p1 p2 ords cells diff).1 = 1 ∧
      numZeros (create_puzzle p0 p1 p2 ords cells diff).1 ≤ cellsToRemove diff ∧
      ∀ d : Digits, validCompletion (create_puzzle p0 p1 p2 ords cells diff).1 d →
        ∀ i j : Fin 9,
          toVal d i j = getCell (create_puzzle p0 p1 p2 ords cells diff).2 i.val j.val := by
  have hsnd : (create_puzzle p0 p1 p2 ords cells diff).2 =
      generate_complete_board_enh p0 p1 p2 ords := by
    unfold create_puzzle
    with_reducible rfl
  have hfst : (create_puzzle p0 p1 p2 ords cells diff).1 =
      removeLoop cells 0 (cellsToRemove diff) (generate_complete_board_enh p0 p1 p2 ords) := by
    unfold create_puzzle
    with_reducible rfl
  rw [hsnd] at hcomplete
  rw [hsnd, hfst]
  obtain ⟨dsol, hfill, hlegal⟩ :=
    generate_complete_board_enh_spec h0 h1 h2 hords hcomplete
  have hWcb : Wf (generate_complete_board_enh p0 p1 p2 ords) := hfill.1
  have hRcb := inRange_of_fills hfill
  have hcnt1 := count_of_fills hfill
  obtain ⟨hWp, hRp, hcntp⟩ :=
    removeLoop_props cells 0 (cellsToRemove diff) hWcb hRcb hcnt1
  have hzcb : numZeros (generate_complete_board_enh p0 p1 p2 ords) = 0 := hcomplete
  refine ⟨hcntp, ?_, ?_⟩
  · have := removeLoop_zeros cells 0 (cellsToRemove diff) hWcb
    omega
  · intro d hd i j
    have hsub := removeLoop_sub cells 0 (cellsToRemove diff) hWcb
    have hdsol : validCompletion
        (removeLoop cells 0 (cellsToRemove diff)
          (generate_complete_board_enh p0 p1 p2 ords)) dsol := by
      refine ⟨?_, fun p q hpq hu => hlegal p q hpq hu⟩
      intro i' j' hnz
      rw [hsub i'.val i'.isLt j'.val j'.isLt hnz]
      rw [hsub i'.val i'.isLt j'.val j'.isLt hnz] at hnz
      exact (hfill.2 i' j').symm
    have hng1 : nGood (removeLoop cells 0 (cellsToRemove diff)
        (generate_complete_board_enh p0 p1 p2 ords)) = 1 := by
      rw [count_solutions_eq hWp hRp] at hcntp
      omega
    have hdd : d = dsol :=
      goodExt_unique hng1 (validCompletion_goodExt hd) (validCompletion_goodExt hdsol)
    rw [hdd]
    exact (hfill.2 i j).symm

/-!  ## The game-variant puzzle construction -/

theorem foldl_zero_wf (l : List (Nat × Nat)) {g : Grid} (hW : Wf g) :
    Wf (l.foldl (fun b rc => setCell b rc.1 rc.2 0) g) := by
  induction l generalizing g with
  | nil => exact hW
  | cons rc t ih => exact ih (wf_setCell hW rc.1 rc.2 0)

theorem foldl_zero_numZeros (l : List (Nat × Nat)) {g : Grid} (hW : Wf g) :
    numZeros (l.foldl (fun b rc => setCell b rc.1 rc.2 0) g) ≤ numZeros g + l.length := by
  induction l generalizing g with
  | nil => simp
  | cons rc t ih =>
    have h1 := ih (wf_setCell hW rc.1 rc.2 0)
    have h2 := numZeros_setCell_le hW rc.1 rc.2
    simp only [List.foldl_cons, List.length_cons]
    omega

theorem foldl_zero_sub (l : List (Nat × Nat)) {g : Grid} (hW : Wf g) :
    ∀ i < 9, ∀ j < 9,
      getCell (l.foldl (fun b rc => setCell b rc.1 rc.2 0) g) i j ≠ 0 →
      getCell (l.foldl (fun b rc => setCell b rc.1 rc.2 0) g) i j = getCell g i j := by
  induction l generalizing g with
  | nil => intro i hi j hj hnz; rfl
  | cons rc t ih =>
    intro i hi j hj hnz
    simp only [List.foldl_cons] at hnz ⊢
    have hstep := ih (wf_setCell hW rc.1 rc.2 0) i hi j hj hnz
    rw [hstep] at hnz ⊢
    by_cases hij : i = rc.1 ∧ j = rc.2
    · exfalso
      obtain ⟨he1, he2⟩ := hij
      subst he1
      subst he2
      rw [getCell_setCell_self hW hi hj] at hnz
      exact hnz rfl
    · have hne : i ≠ rc.1 ∨ j ≠ rc.2 := by tauto
      exact getCell_setCell_ne hne 0

theorem generate_complete_board_props {p0 p1 p2 : List Nat}
    (h0 : p0.Perm (List.range' 1 9)) (h1 : p1.Perm (List.range' 1 9))
    (h2 : p2.Perm (List.range' 1 9)) :
    Wf (generate_complete_board p0 p1 p2) ∧ inRange (generate_complete_board p0 p1 p2) := by
  have hW := diagBoard_wf p0 p1 p2
  have hR := diagBoard_inRange (perm_le_nine h0) (perm_le_nine h1) (perm_le_nine h2)
  obtain ⟨b2, r, heq, ht, hf⟩ := solveF_spec hW hR (numZeros_lt_82 (diagBoard p0 p1 p2))
  have hcb : generate_complete_board p0 p1 p2 = b2 := by
    unfold generate_complete_board
    rw [heq]
  rw [hcb]
  cases r with
  | false =>
    obtain ⟨hb2, _⟩ := hf rfl
    rw [hb2]
    exact ⟨hW, hR⟩
  | true =>
    obtain ⟨d, _, hfill⟩ := ht rfl
    exact ⟨hfill.1, inRange_of_fills hfill⟩

theorem create_puzzle_game_spec {p0 p1 p2 : List Nat} {cells : List (Nat × Nat)}
    {diff : Difficulty}
    (h0 : p0.Perm (List.range' 1 9)) (h1 : p1.Perm (List.range' 1 9))
    (h2 : p2.Perm (List.range' 1 9)) :
    numZeros (create_puzzle_game p0 p1 p2 cells diff).1 ≤
      numZeros (create_puzzle_game p0 p1 p2 cells diff).2 + cellsToRemove diff ∧
    ∀ i < 9, ∀ j < 9,
      getCell (create_puzzle_game p0 p1 p2 cells diff).1 i j ≠ 0 →
      getCell (create_puzzle_game p0 p1 p2 cells diff).1 i j =
        getCell (create_puzzle_game p0 p1 p2 cells diff).2 i j := by
  have hsnd : (create_puzzle_game p0 p1 p2 cells diff).2 =
      generate_complete_board p0 p1 p2 := by
    unfold create_puzzle_game
    with_reducible rfl
  have hfst : (create_puzzle_game p0 p1 p2 cells diff).1 =
      (cells.take (cellsToRemove diff)).foldl (fun b rc => setCell b rc.1 rc.2 0)
        (generate_complete_board p0 p1 p2) := by
    unfold create_puzzle_game
    with_reducible rfl
  rw [hsnd, hfst]
  obtain ⟨hWcb, hRcb⟩ := generate_complete_board_props h0 h1 h2
  constructor
  · have hlen : (cells.take (cellsToRemove diff)).length ≤ cellsToRemove diff := by
      simp [List.length_take_le]
    have := foldl_zero_numZeros (cells.take (cellsToRemove diff)) hWcb
    omega
  · exact foldl_zero_sub (cells.take (cellsToRemove diff)) hWcb

/-!  ## Helper facts for the concrete scenarios -/

theorem allCellsL_eq :
    allCellsL = (List.range 9).flatMap fun i => (List.range 9).map fun j => (i, j) := by
  decide

theorem perm_ne_zero {l : List Nat} (hp : l.Perm (List.range' 1 9)) :
    ∀ n ∈ l, n ≠ 0 := by
  intro n hn
  have := List.mem_range'_1.mp (hp.mem_iff.mp hn)
  omega

theorem ordsW_perm (k : Nat) : (ordsW k).Perm (List.range' 1 9) := by
  have hall : ∀ x ∈ targetsW, x ∈ List.range' 1 9 := by decide
  rw [ordsW]
  cases hg : targetsW.get? k with
  | none => exact List.Perm.refl _
  | some d => exact (List.perm_cons_erase (hall d (List.get?_mem hg))).symm

theorem allOnes_no_completion : nCompletions allOnes = 0 := by
  rw [nCompletions, Finset.card_eq_zero, Finset.filter_eq_empty_iff]
  intro d _
  intro hv
  obtain ⟨hagree, hconf⟩ := hv
  have hc1 : getCell allOnes 0 0 = 1 := by decide
  have hc2 : getCell allOnes 0 1 = 1 := by decide
  have h1 : toVal d 0 0 = getCell allOnes 0 0 := hagree 0 0 (by decide)
  have h2 : toVal d 0 1 = getCell allOnes 0 1 := hagree 0 1 (by decide)
  refine hconf ((0 : Fin 9), (0 : Fin 9)) ((0 : Fin 9), (1 : Fin 9)) (by decide)
    (Or.inl rfl) ?_
  rw [h1, h2, hc1, hc2]

theorem count_emptyGrid : count_solutions emptyGrid = 2 := by
  have h1 : goodExt emptyGrid d1W := by decide
  have h2 : goodExt emptyGrid d2W := by decide
  have hne : d1W ≠ d2W := by
    intro h
    have he : d1W 0 0 = d2W 0 0 := by rw [h]
    revert he
    decide
  have hge : 2 ≤ nGood emptyGrid := by
    rw [nGood]
    refine Finset.one_lt_card.mpr ⟨d1W, ?_, d2W, ?_, hne⟩
    · simp only [Finset.mem_filter, Finset.mem_univ, true_and]
      exact h1
    · simp only [Finset.mem_filter, Finset.mem_univ, true_and]
      exact h2
  rw [count_solutions_eq wf_emptyGrid (by decide)]
  omega

theorem generate_complete_board_enh_props {p0 p1 p2 : List Nat} {ords : Nat → List Nat}
    (h0 : p0.Perm (List.range' 1 9)) (h1 : p1.Perm (List.range' 1 9))
    (h2 : p2.Perm (List.range' 1 9))
    (hords : ∀ m, (ords m).Perm (List.range' 1 9)) :
    Wf (generate_complete_board_enh p0 p1 p2 ords) ∧
      inRange (generate_complete_board_enh p0 p1 p2 ords) := by
  have hW := diagBoard_wf p0 p1 p2
  have hR := diagBoard_inRange (perm_le_nine h0) (perm_le_nine h1) (perm_le_nine h2)
  obtain ⟨b2, r, k2, heq, ht, hf⟩ :=
    @solveEF_spec ords hords 82 (diagBoard p0 p1 p2) 0 hW hR (numZeros_lt_82 _)
  have hcb : generate_complete_board_enh p0 p1 p2 ords = b2 := by
    unfold generate_complete_board_enh
    rw [heq]
  rw [hcb]
  cases r with
  | false =>
    obtain ⟨hb2, _⟩ := hf rfl
    rw [hb2]
    exact ⟨hW, hR⟩
  | true =>
    obtain ⟨d, _, hfill⟩ := ht rfl
    exact ⟨hfill.1, inRange_of_fills hfill⟩

/-!  ## The claims -/

/-- C1: for every `(puzzle, solution)` pair returned by the enhanced
`create_puzzle` — for every difficulty, every shuffle outcome of the three
diagonal boxes and of the solver's digit orders, every shuffled coordinate
order, and provided the generated complete board really is complete — the
puzzle has exactly one completion: `count_solutions` on the puzzle returns 1,
and every complete legal solution of the puzzle equals the returned solution
cell for cell.  (The original claim, quantified over both variants with no
completeness proviso, is refuted by `C1_unique_solution_cex`: the game
variant's `create_puzzle` never re-checks uniqueness.) -/
theorem C1_unique_solution {p0 p1 p2 : List Nat} {ords : Nat → List Nat}
    {cells : List (Nat × Nat)} {diff : Difficulty}
    (h0 : p0.Perm (List.range' 1 9)) (h1 : p1.Perm (List.range' 1 9))
    (h2 : p2.Perm (List.range' 1 9))
    (hords : ∀ m, (ords m).Perm (List.range' 1 9))
    (hcomplete : numZeros (create_puzzle p0 p1 p2 ords cells diff).2 = 0) :
    count_solutions (create_puzzle p0 p1 p2 ords cells diff).1 = 1 ∧
      ∀ d : Digits, validCompletion (create_puzzle p0 p1 p2 ords cells diff).1 d →
        ∀ i j : Fin 9,
          toVal d i j = getCell (create_puzzle p0 p1 p2 ords cells diff).2 i.val j.val := by
  obtain ⟨ha, _, hc⟩ := create_puzzle_spec h0 h1 h2 hords hcomplete
  exact ⟨ha, hc⟩

set_option maxRecDepth 200000 in
theorem C1_unique_solution_witness :
    count_solutions (create_puzzle p0W p1W p2W ordsW [] Difficulty.easy).1 = 1 :=
  (C1_unique_solution (by decide) (by decide) (by decide) ordsW_perm (by decide)).1

set_option maxRecDepth 200000 in
theorem C1_unique_solution_cex :
    p0W.Perm (List.range' 1 9) ∧ p1W.Perm (List.range' 1 9) ∧
    p2W.Perm (List.range' 1 9) ∧ cellsCexFull.Perm allCellsL ∧
    count_solutions (create_puzzle_game p0W p1W p2W cellsCexFull Difficulty.easy).1 = 2 := by
  refine ⟨by decide, by decide, by decide, by decide, ?_⟩
  decide

/-- C2: solver soundness and completeness.  On every well-formed, in-range,
legally-consistent board, `solve_sudoku` returns `True` exactly when the board
has a complete legal extension; on `True` the returned board is a complete
legal solution extending the input, and on `False` the board comes back
unchanged. -/
theorem C2_solver_correct (b : Grid) (hW : Wf b) (hR : inRange b)
    (hc : consistent b) :
    ∃ b2 r, solve_sudoku b = (b2, r) ∧
      (r = true ↔ 0 < nCompletions b) ∧
      (r = true → ∃ d, validCompletion b d ∧ fills b2 d) ∧
      (r = false → b2 = b) := by
  obtain ⟨b2, r, heq, ht, hf⟩ := solve_sudoku_spec hW hR
  refine ⟨b2, r, heq, ?_, ?_, fun hr => (hf hr).1⟩
  · constructor
    · intro hr
      obtain ⟨d, hg, _⟩ := ht hr
      have hpos := nGood_pos_of_goodExt hg
      rwa [nGood_eq_nCompletions hc] at hpos
    · intro hpos
      cases r with
      | true => rfl
      | false =>
        exfalso
        have h0 := (hf rfl).2
        rw [nGood_eq_nCompletions hc] at h0
        omega
  · intro hr
    obtain ⟨d, hg, hfills⟩ := ht hr
    exact ⟨d, (goodExt_iff_validCompletion hc d).mp hg, hfills⟩

set_option maxRecDepth 200000 in
theorem C2_solver_correct_witness :
    ∃ b2 r, solve_sudoku (setCell GW 0 0 0) = (b2, r) ∧
      (r = true ↔ 0 < nCompletions (setCell GW 0 0 0)) ∧
      (r = true → ∃ d, validCompletion (setCell GW 0 0 0) d ∧ fills b2 d) ∧
      (r = false → b2 = setCell GW 0 0 0) :=
  C2_solver_correct (setCell GW 0 0 0) (by decide) (by decide) (by decide)

/-- C3: for every well-formed, in-range, legally-consistent board,
`count_solutions` returns exactly `min 2 n` where `n` is the number of
complete legal extensions, and on the all-blank board it returns exactly 2.
(The original claim, quantified over all grids, is refuted by
`C3_count_capped_cex`: on an inconsistent full board the count is 1 although
no legal completion exists, because the base case never re-validates the
filled cells.) -/
theorem C3_count_capped (b : Grid) (hW : Wf b) (hR : inRange b)
    (hc : consistent b) :
    count_solutions b = min 2 (nCompletions b) ∧ count_solutions emptyGrid = 2 := by
  constructor
  · rw [count_solutions_eq hW hR, nGood_eq_nCompletions hc]
  · exact count_emptyGrid

set_option maxRecDepth 200000 in
theorem C3_count_capped_witness :
    count_solutions emptyGrid = min 2 (nCompletions emptyGrid) ∧
      count_solutions emptyGrid = 2 :=
  C3_count_capped emptyGrid (by decide) (by decide) (by decide)

set_option maxRecDepth 200000 in
theorem C3_count_capped_cex :
    count_solutions allOnes = 1 ∧ nCompletions allOnes = 0 :=
  ⟨by decide, allOnes_no_completion⟩

/-- C5: validator correctness.  `is_valid_move b r c n` returns `True` exactly
when `n` occurs at no cell sharing row `r`, column `c`, or the 3×3 box of
`(r, c)`; consequently, after a digit `n` is legally placed at the empty cell
`(r, c)`, `is_valid_move` answers `False` for `n` at every other cell of that
row, column or box. -/
theorem C5_validator (b : Grid) (hW : Wf b) {r c : Nat} (hr : r < 9) (hc : c < 9)
    (n : Nat) :
    (is_valid_move b r c n = true ↔
      ∀ i j, i < 9 → j < 9 → sameUnit r c i j → getCell b i j ≠ n) ∧
    (is_valid_move b r c n = true → n ≠ 0 →
      ∀ i j, i < 9 → j < 9 → sameUnit r c i j → ¬(i = r ∧ j = c) →
        is_valid_move (setCell b r c n) i j n = false) := by
  refine ⟨valid_iff hr hc, ?_⟩
  intro hv hn0 i j hi hj hu hne
  by_contra htrue
  have ht : is_valid_move (setCell b r c n) i j n = true := by
    cases hb : is_valid_move (setCell b r c n) i j n with
    | false => exact absurd hb htrue
    | true => rfl
  have hx := (valid_iff hi hj).mp ht r c hr hc (sameUnit_symm hu)
  rw [getCell_setCell_self hW hr hc] at hx
  exact hx rfl

theorem C5_validator_witness :
    (is_valid_move emptyGrid 4 4 5 = true ↔
      ∀ i j, i < 9 → j < 9 → sameUnit 4 4 i j → getCell emptyGrid i j ≠ 5) ∧
    (is_valid_move emptyGrid 4 4 5 = true → 5 ≠ 0 →
      ∀ i j, i < 9 → j < 9 → sameUnit 4 4 i j → ¬(i = 4 ∧ j = 4) →
        is_valid_move (setCell emptyGrid 4 4 5) i j 5 = false) :=
  C5_validator emptyGrid (by decide) (by decide) (by decide) 5

/-- C6: termination.  On every well-formed board, fuel 82 (one more than the
largest possible number of empty cells) suffices for all three searches: the
ascending solver, the solution counter, and the randomized solver under any
digit-order stream with no zero digit, so each returns rather than running out
of fuel — the fuelled embeddings coincide with the unbounded Python
recursions. -/
theorem C6_termination (b : Grid) (hW : Wf b) (ords : Nat → List Nat)
    (hords : ∀ m, ∀ n ∈ ords m, n ≠ 0) (k cnt : Nat) :
    (solveF 82 b).isSome ∧ (countF 82 b cnt).isSome ∧
      (solveEF ords 82 b k).isSome :=
  ⟨solveF_total hW (numZeros_lt_82 b), countF_total hW (numZeros_lt_82 b),
   solveEF_total hords hW (numZeros_lt_82 b)⟩

theorem C6_termination_witness :
    (solveF 82 stuckGrid).isSome ∧ (countF 82 stuckGrid 0).isSome ∧
      (solveEF (fun _ => List.range' 1 9) 82 stuckGrid 0).isSome :=
  C6_termination stuckGrid (by decide) (fun _ => List.range' 1 9)
    (fun _ => perm_ne_zero (List.Perm.refl _)) 0 0

/-- C7: backtracking restores the board.  On every well-formed board, the
ascending solver hands back the unchanged input whenever it answers `False`
(`solve_sudoku` included), the counter always hands back the unchanged input,
and so does the randomized solver on `False` — every tentative placement is
un-placed. -/
theorem C7_backtracking_restores (b : Grid) (hW : Wf b) :
    ((solve_sudoku b).2 = false → (solve_sudoku b).1 = b) ∧
    (∀ fuel g, solveF fuel b = some (g, false) → g = b) ∧
    (∀ fuel cnt g n, countF fuel b cnt = some (g, n) → g = b) ∧
    (∀ ords fuel k g k2, solveEF ords fuel b k = some (g, false, k2) → g = b) := by
  refine ⟨?_, fun fuel g h => solveF_restore hW h,
    fun fuel cnt g n h => countF_restore hW h,
    fun ords fuel k g k2 h => solveEF_restore hW h⟩
  intro hfalse
  rw [solve_sudoku] at hfalse ⊢
  cases h : solveF 82 b with
  | none => rfl
  | some p =>
    obtain ⟨g, r⟩ := p
    rw [h] at hfalse
    simp only [Option.getD_some] at hfalse
    rw [hfalse] at h
    exact solveF_restore hW h

theorem C7_backtracking_restores_witness :
    ((solve_sudoku stuckGrid).2 = false → (solve_sudoku stuckGrid).1 = stuckGrid) ∧
    (∀ fuel g, solveF fuel stuckGrid = some (g, false) → g = stuckGrid) ∧
    (∀ fuel cnt g n, countF fuel stuckGrid cnt = some (g, n) → g = stuckGrid) ∧
    (∀ ords fuel k g k2,
      solveEF ords fuel stuckGrid k = some (g, false, k2) → g = stuckGrid) :=
  C7_backtracking_restores stuckGrid (by decide)

/-- C8: removal targets.  The difficulty fractions 0.3/0.5/0.7/0.8 give
`floor(81 * f)` equal to 24, 40, 56 and 64, and — whenever the generated
complete board really is complete — the puzzle returned by either variant of
`create_puzzle` has at most that many blanks: the enhanced removal loop stops
at the target (or when the shuffled coordinates run out), and the game variant
blanks exactly the first `target` shuffled coordinates. -/
theorem C8_removal_target {p0 p1 p2 : List Nat} {ords : Nat → List Nat}
    {cells : List (Nat × Nat)} {diff : Difficulty}
    (h0 : p0.Perm (List.range' 1 9)) (h1 : p1.Perm (List.range' 1 9))
    (h2 : p2.Perm (List.range' 1 9))
    (hords : ∀ m, (ords m).Perm (List.range' 1 9))
    (hcE : numZeros (create_puzzle p0 p1 p2 ords cells diff).2 = 0) :
    (cellsToRemove Difficulty.easy = 24 ∧ cellsToRemove Difficulty.medium = 40 ∧
      cellsToRemove Difficulty.hard = 56 ∧ cellsToRemove Difficulty.expert = 64) ∧
    numZeros (create_puzzle p0 p1 p2 ords cells diff).1 ≤ cellsToRemove diff ∧
    (numZeros (create_puzzle_game p0 p1 p2 cells diff).2 = 0 →
      numZeros (create_puzzle_game p0 p1 p2 cells diff).1 ≤ cellsToRemove diff) := by
  refine ⟨by decide, (create_puzzle_spec h0 h1 h2 hords hcE).2.1, ?_⟩
  intro hcG
  have hg := (@create_puzzle_game_spec p0 p1 p2 cells diff h0 h1 h2).1
  omega

set_option maxRecDepth 200000 in
theorem C8_removal_target_witness :
    (cellsToRemove Difficulty.easy = 24 ∧ cellsToRemove Difficulty.medium = 40 ∧
      cellsToRemove Difficulty.hard = 56 ∧ cellsToRemove Difficulty.expert = 64) ∧
    numZeros (create_puzzle p0W p1W p2W ordsW [] Difficulty.easy).1 ≤
      cellsToRemove Difficulty.easy ∧
    (numZeros (create_puzzle_game p0W p1W p2W [] Difficulty.easy).2 = 0 →
      numZeros (create_puzzle_game p0W p1W p2W [] Difficulty.easy).1 ≤
        cellsToRemove Difficulty.easy) :=
  C8_removal_target (by decide) (by decide) (by decide) ordsW_perm (by decide)

/-- C9: puzzle/solution agreement.  For both variants of `create_puzzle`,
every non-zero cell of the returned puzzle equals the corresponding cell of
the returned solution — the puzzle arises from the solution only by blanking
cells. -/
theorem C9_puzzle_subset {p0 p1 p2 : List Nat} {ords : Nat → List Nat}
    {cells : List (Nat × Nat)} {diff : Difficulty}
    (h0 : p0.Perm (List.range' 1 9)) (h1 : p1.Perm (List.range' 1 9))
    (h2 : p2.Perm (List.range' 1 9))
    (hords : ∀ m, (ords m).Perm (List.range' 1 9)) :
    (∀ i < 9, ∀ j < 9,
      getCell (create_puzzle p0 p1 p2 ords cells diff).1 i j ≠ 0 →
      getCell (create_puzzle p0 p1 p2 ords cells diff).1 i j =
        getCell (create_puzzle p0 p1 p2 ords cells diff).2 i j) ∧
    (∀ i < 9, ∀ j < 9,
      getCell (create_puzzle_game p0 p1 p2 cells diff).1 i j ≠ 0 →
      getCell (create_puzzle_game p0 p1 p2 cells diff).1 i j =
        getCell (create_puzzle_game p0 p1 p2 cells diff).2 i j) := by
  constructor
  · have hsnd : (create_puzzle p0 p1 p2 ords cells diff).2 =
        generate_complete_board_enh p0 p1 p2 ords := by
      unfold create_puzzle
      with_reducible rfl
    have hfst : (create_puzzle p0 p1 p2 ords cells diff).1 =
        removeLoop cells 0 (cellsToRemove diff)
          (generate_complete_board_enh p0 p1 p2 ords) := by
      unfold create_puzzle
      with_reducible rfl
    rw [hsnd, hfst]
    exact removeLoop_sub cells 0 (cellsToRemove diff)
      (generate_complete_board_enh_props h0 h1 h2 hords).1
  · exact (create_puzzle_game_spec h0 h1 h2).2

theorem C9_puzzle_subset_witness :
    (∀ i < 9, ∀ j < 9,
      getCell (create_puzzle p0W p1W p2W ordsW [] Difficulty.easy).1 i j ≠ 0 →
      getCell (create_puzzle p0W p1W p2W ordsW [] Difficulty.easy).1 i j =
        getCell (create_puzzle p0W p1W p2W ordsW [] Difficulty.easy).2 i j) ∧
    (∀ i < 9, ∀ j < 9,
      getCell (create_puzzle_game p0W p1W p2W [] Difficulty.easy).1 i j ≠ 0 →
      getCell (create_puzzle_game p0W p1W p2W [] Difficulty.easy).1 i j =
        getCell (create_puzzle_game p0W p1W p2W [] Difficulty.easy).2 i j) :=
  C9_puzzle_subset (by decide) (by decide) (by decide) ordsW_perm

/-- C10: the two solver variants are one algorithm differing only in digit
order.  On every well-formed in-range board, the ascending solver and the
randomized solver under any stream of digit-order permutations return the same
boolean, and — provided the input is legally consistent — whenever that
boolean is `True` each solver's output board is a complete legal solution
extending the input.  (The original claim asserted output validity with no
consistency proviso; `C10_solver_refinement_cex` refutes that: on an
inconsistent full board both solvers answer `True` and hand back the board,
which has no legal completion.) -/
theorem C10_solver_refinement (b : Grid) (hW : Wf b) (hR : inRange b)
    (ords : Nat → List Nat) (hords : ∀ m, (ords m).Perm (List.range' 1 9))
    (k : Nat) :
    ∃ g r g2 k2, solveF 82 b = some (g, r) ∧
      solveEF ords 82 b k = some (g2, r, k2) ∧
      (consistent b → r = true →
        (∃ d, validCompletion b d ∧ fills g d) ∧
        (∃ d, validCompletion b d ∧ fills g2 d)) := by
  obtain ⟨g, r1, heq1, ht1, hf1⟩ := solveF_spec hW hR (numZeros_lt_82 b)
  obtain ⟨g2, r2, k2, heq2, ht2, hf2⟩ :=
    @solveEF_spec ords hords 82 b k hW hR (numZeros_lt_82 b)
  have hrr : r1 = r2 := by
    cases r1 with
    | true =>
      cases r2 with
      | true => rfl
      | false =>
        exfalso
        obtain ⟨d, hg, _⟩ := ht1 rfl
        have hpos := nGood_pos_of_goodExt hg
        have h0 := (hf2 rfl).2
        omega
    | false =>
      cases r2 with
      | false => rfl
      | true =>
        exfalso
        obtain ⟨d, hg, _⟩ := ht2 rfl
        have hpos := nGood_pos_of_goodExt hg
        have h0 := (hf1 rfl).2
        omega
  subst hrr
  refine ⟨g, r1, g2, k2, heq1, heq2, ?_⟩
  intro hc hr
  obtain ⟨d, hgd, hfd⟩ := ht1 hr
  obtain ⟨d2, hgd2, hfd2⟩ := ht2 hr
  exact ⟨⟨d, (goodExt_iff_validCompletion hc d).mp hgd, hfd⟩,
    ⟨d2, (goodExt_iff_validCompletion hc d2).mp hgd2, hfd2⟩⟩

theorem C10_solver_refinement_witness :
    ∃ g r g2 k2, solveF 82 (setCell GW 8 8 0) = some (g, r) ∧
      solveEF (fun _ => List.range' 1 9) 82 (setCell GW 8 8 0) 0 =
        some (g2, r, k2) ∧
      (consistent (setCell GW 8 8 0) → r = true →
        (∃ d, validCompletion (setCell GW 8 8 0) d ∧ fills g d) ∧
        (∃ d, validCompletion (setCell GW 8 8 0) d ∧ fills g2 d)) :=
  C10_solver_refinement (setCell GW 8 8 0) (by decide) (by decide)
    (fun _ => List.range' 1 9) (fun _ => List.Perm.refl _) 0

set_option maxRecDepth 200000 in
theorem C10_solver_refinement_cex :
    solve_sudoku allOnes = (allOnes, true) ∧ nCompletions allOnes = 0 :=
  ⟨by decide, allOnes_no_completion⟩

end Sudoku
